import Mathlib

/-!
Shallow embedding of the TOML formatter of go-pretty-toml
(internal/formatter/formatter.go) and proofs about it.

The embedding models:
  - Go values decoded from TOML (`map[string]interface{}` trees) as `GoValue`;
    a Go map is modelled as an association list with lookup-first semantics
    (a real Go map has distinct keys; where a proof needs that fact it carries
    a `Nodup` hypothesis);
  - the output `bytes.Buffer` as a `String` threaded through the functions;
    errors as `Option String` alongside the buffer (Go mutates the buffer and
    returns `error`);
  - `len` on Go strings (UTF-8 byte count) as `byteLen`;
  - recursion depth by an explicit fuel parameter: Go recursion is unbounded,
    the fuel only bounds the nesting of `formatMap` calls and is chosen large
    enough at the entry point (`needMap` computes a sufficient bound).
-/

namespace PrettyToml

/-- A single-quote character, kept out of string literals. -/
def apos : String := String.singleton (Char.ofNat 39)

/-- UTF-8 byte count of a character list. -/
def byteLenL (l : List Char) : Nat := (l.map Char.utf8Size).sum

/-- Go `len(s)` on a string: the UTF-8 byte count. -/
def byteLen (s : String) : Nat := byteLenL s.data

/-- One Go `interface{}` value as produced by the TOML decoder.

`vFloat` and `vTime` carry their Go rendering (`fmt.Sprintf("%g", f)` resp.
`t.Format(time.RFC3339Nano)`) as a string: IEEE-754 shortest round-trip
formatting and the Go time formatter are outside this embedding, and the
formatter only ever passes these values through to the output verbatim. -/
inductive GoValue where
  | vStr (s : String)
  | vInt (i : Int)
  | vFloat (g : String)
  | vBool (b : Bool)
  | vTime (rfc3339 : String)
  | vNil
  | vArr (items : List GoValue)
  | vTable (entries : List (String × GoValue))

/-- A Go `map[string]interface{}`, as an association list. -/
abbrev GoMap := List (String × GoValue)

/-- Keys of a map, in representation order (Go map iteration order is
arbitrary; the formatter sorts before use, so only the multiset matters). -/
def keysOf {α : Type} (m : List (String × α)) : List String := m.map Prod.fst

/-- Go `dataMap[k]`: the zero value of `interface{}` is `nil` when absent. -/
def mapGet (m : GoMap) (k : String) : GoValue := (List.lookup k m).getD .vNil

/-- Lexicographic strict comparison of character lists (code-point order,
which on UTF-8 encodings coincides with Go byte order). -/
def listLtB : List Char → List Char → Bool
  | [], [] => false
  | [], _ :: _ => true
  | _ :: _, [] => false
  | a :: as, b :: bs => if a < b then true else if b < a then false else listLtB as bs

/-- Go `a < b` on strings (used by `sort.Strings`). -/
def strLtB (a b : String) : Bool := listLtB a.data b.data

/-- The non-strict companion of `strLtB`. -/
def strLeB (a b : String) : Bool := !(strLtB b a)

/-- Go `sort.Strings`: sorts byte-lexicographically, which on UTF-8 data
coincides with the code-point lexicographic order of `String`. -/
def sortStrings (l : List String) : List String :=
  List.insertionSort (fun a b => strLeB a b = true) l

/-- Go `strings.Join(path, ".")`. -/
def dotJoin (p : List String) : String := String.intercalate "." p

/-- Two lowercase hex digits of a byte, as in Go quoting `\xhh`. -/
def hexByte (n : Nat) : String :=
  let digit (d : Nat) : Char := if d < 10 then Char.ofNat (48 + d) else Char.ofNat (87 + d)
  String.singleton (digit (n / 16 % 16)) ++ String.singleton (digit (n % 16))

/-- Quoting of one character following Go `strconv.Quote` (used by `%q`).
Exact on the ASCII range. Non-ASCII printability (`unicode.IsPrint` table
lookups) is not embedded: non-ASCII runes are emitted verbatim, which is
what Go does for every printable rune; no claim exercises a non-printable
non-ASCII rune. -/
def goQuoteChar (c : Char) : String :=
  if c = Char.ofNat 34 then "\\" ++ String.singleton (Char.ofNat 34)
  else if c = Char.ofNat 92 then "\\\\"
  else if 0x20 ≤ c.toNat ∧ c.toNat ≤ 0x7e then String.singleton c
  else if c.toNat = 7 then "\\a"
  else if c.toNat = 8 then "\\b"
  else if c.toNat = 12 then "\\f"
  else if c = Char.ofNat 10 then "\\n"
  else if c = Char.ofNat 13 then "\\r"
  else if c = Char.ofNat 9 then "\\t"
  else if c.toNat = 11 then "\\v"
  else if c.toNat < 0x80 then "\\x" ++ hexByte c.toNat
  else String.singleton c

/-- Go `fmt.Sprintf("%q", s)`. -/
def goQuote (s : String) : String :=
  String.singleton (Char.ofNat 34) ++ String.join (s.data.map goQuoteChar)
    ++ String.singleton (Char.ofNat 34)

/-- Go `%T` on the modelled values (only reachable in defensive branches). -/
def goTypeName : GoValue → String
  | .vStr _ => "string"
  | .vInt _ => "int64"
  | .vFloat _ => "float64"
  | .vBool _ => "bool"
  | .vTime _ => "time.Time"
  | .vNil => "<nil>"
  | .vArr _ => "[]interface \x7b\x7d"
  | .vTable _ => "map[string]interface \x7b\x7d"

mutual
/-- `formatTomlValue` of formatter.go: one scalar or array value to its TOML
text. A table hitting this function falls into Go's `default` branch and
produces the `%T` diagnostic placeholder. -/
def formatTomlValue : GoValue → String
  | .vStr s => goQuote s
  | .vInt i => toString i
  | .vFloat g => g
  | .vBool b => if b then "true" else "false"
  | .vTime t => t
  | .vNil => apos ++ apos
  | .vArr items => "[" ++ String.intercalate ", " (formatValueList items) ++ "]"
  | .vTable _ => "<<UNKNOWN TYPE map[string]interface \x7b\x7d>>"

/-- The element loop inside `formatTomlValue`'s array case. -/
def formatValueList : List GoValue → List String
  | [] => []
  | v :: rest => formatTomlValue v :: formatValueList rest
end

/-- The inner scan of a non-empty array in `formatMap`'s pass 1.
`containsMaps` tracks whether a table element was already seen.
`.error ()` is Go's mixed-array error, `.ok true` leaves `isArrTable = true`
(array of tables), `.ok false` is the break without error (simple array). -/
def scanArrayItems : List GoValue → Bool → Except Unit Bool
  | [], _ => .ok true
  | item :: rest, containsMaps =>
    match item with
    | .vTable _ => scanArrayItems rest true
    | _ => if containsMaps then .error () else .ok false

/-- The four accumulators of `formatMap`'s pass 1. -/
structure Categorized where
  simpleKeys : List String
  maxKeyLen : Nat
  tableKeys : List String
  arrayTableKeys : List (String × List GoValue)

def Categorized.init : Categorized := ⟨[], 0, [], []⟩

/-- Pass 1 of `formatMap`: categorize keys (already sorted) and track the
maximum simple-key length. The mixed-array error aborts the pass. -/
def categorizeLoop (m : GoMap) (path : List String) :
    List String → Categorized → Except String Categorized
  | [], acc => .ok acc
  | k :: rest, acc =>
    match mapGet m k with
    | .vArr arr =>
      if arr.length > 0 then
        match scanArrayItems arr false with
        | .error _ =>
          .error ("key " ++ apos ++ dotJoin (path ++ [k]) ++ apos
            ++ ": arrays cannot mix tables and non-tables")
        | .ok true =>
          categorizeLoop m path rest
            { acc with arrayTableKeys := acc.arrayTableKeys ++ [(k, arr)] }
        | .ok false =>
          categorizeLoop m path rest
            { acc with simpleKeys := acc.simpleKeys ++ [k],
                       maxKeyLen := max acc.maxKeyLen (byteLen k) }
      else
        categorizeLoop m path rest
          { acc with simpleKeys := acc.simpleKeys ++ [k],
                     maxKeyLen := max acc.maxKeyLen (byteLen k) }
    | .vTable _ =>
      categorizeLoop m path rest { acc with tableKeys := acc.tableKeys ++ [k] }
    | _ =>
      categorizeLoop m path rest
        { acc with simpleKeys := acc.simpleKeys ++ [k],
                   maxKeyLen := max acc.maxKeyLen (byteLen k) }

/-- Pass 1 of `formatMap`, from the collected and sorted keys. -/
def categorize (m : GoMap) (path : List String) : Except String Categorized :=
  categorizeLoop m path (sortStrings (keysOf m)) Categorized.init

/-- The padding of one simple key: `strings.Repeat(" ", maxKeyLen-len(k))`. -/
def padOf (maxKeyLen : Nat) (k : String) : String :=
  String.mk (List.replicate (maxKeyLen - byteLen k) (Char.ofNat 32))

/-- One line written by `formatSimpleKeys`. -/
def simpleLine (m : GoMap) (maxKeyLen : Nat) (currentIndent k : String) : String :=
  currentIndent ++ k ++ padOf maxKeyLen k ++ " = " ++ formatTomlValue (mapGet m k) ++ "\n"

/-- `formatSimpleKeys` of formatter.go: append one aligned line per key. -/
def formatSimpleKeys (dataMap : GoMap) (simpleKeys : List String) (maxKeyLen : Nat)
    (currentIndent : String) (output : String) : String :=
  match simpleKeys with
  | [] => output
  | k :: rest =>
    formatSimpleKeys dataMap rest maxKeyLen currentIndent
      (output ++ simpleLine dataMap maxKeyLen currentIndent k)

/-- Is `c` in the cutset `"\n\t "` of the `bytes.TrimRight` calls. -/
def isCutChar (c : Char) : Bool := c = '\n' || c = Char.ofNat 9 || c = Char.ofNat 32

/-- Byte length of `bytes.TrimRight(output.Bytes(), "\n\t ")`. The cutset is
ASCII, so trimming whole characters and trimming bytes agree. -/
def trimmedLen (output : String) : Nat :=
  byteLen (String.mk ((output.data.reverse.dropWhile isCutChar).reverse))

/-- `bytes.HasSuffix(output.Bytes(), []byte("\n\n"))` (ASCII suffix, so byte
and character suffixes agree). -/
def hasSuffixNN (output : String) : Bool := ['\n', '\n'].isSuffixOf output.data

/-- The blank-line-separator decision in `formatArrayTables` (element index `i`). -/
def sepAT (output : String) (i : Nat) : Bool :=
  if byteLen output > 0 then
    if ((0 < trimmedLen output && trimmedLen output < byteLen output) || 0 < i) then
      !hasSuffixNN output
    else false
  else false

/-- The blank-line-separator decision in `formatRegularTables`. -/
def sepRT (output : String) : Bool :=
  if byteLen output > 0 then
    if 0 < trimmedLen output && trimmedLen output < byteLen output then
      !hasSuffixNN output
    else if trimmedLen output = byteLen output && byteLen output > 0 then
      true
    else false
  else false

/-- The element loop of `formatArrayTables` for one key: `fm` is the recursive
`formatMap` (made explicit because recursion depth is fuel-indexed). -/
def fATItems
    (fm : GoMap → List String → String → String → String → String × Option String)
    (fullPath : List String) (fullPathString : String)
    (currentIndent indentUnit : String) :
    List GoValue → Nat → String → String × Option String
  | [], _, output => (output, none)
  | item :: rest, i, output =>
    match item with
    | .vTable subMap =>
      let output1 := if sepAT output i then output ++ "\n" else output
      let output2 := output1 ++ currentIndent ++ "[[" ++ fullPathString ++ "]]\n"
      match fm subMap fullPath (currentIndent ++ indentUnit) indentUnit output2 with
      | (output3, some e) =>
        (output3, some ("formatting array table " ++ apos ++ fullPathString ++ apos
          ++ " index " ++ toString i ++ ": " ++ e))
      | (output3, none) =>
        fATItems fm fullPath fullPathString currentIndent indentUnit rest (i + 1) output3
    | _ =>
      (output, some ("internal error: item in array table " ++ apos ++ fullPathString
        ++ apos ++ " not a map"))

/-- The key loop of `formatArrayTables`, over the sorted keys. -/
def fATKeys
    (fm : GoMap → List String → String → String → String → String × Option String)
    (arrayTableKeys : List (String × List GoValue)) (currentPath : List String)
    (currentIndent indentUnit : String) :
    List String → String → String × Option String
  | [], output => (output, none)
  | k :: restKeys, output =>
    let arrData := (List.lookup k arrayTableKeys).getD []
    let fullPath := currentPath ++ [k]
    let fullPathString := dotJoin fullPath
    match fATItems fm fullPath fullPathString currentIndent indentUnit arrData 0 output with
    | (output1, some e) => (output1, some e)
    | (output1, none) =>
      fATKeys fm arrayTableKeys currentPath currentIndent indentUnit restKeys output1

/-- `formatArrayTables` of formatter.go. -/
def formatArrayTables
    (fm : GoMap → List String → String → String → String → String × Option String)
    (arrayTableKeys : List (String × List GoValue)) (currentPath : List String)
    (currentIndent indentUnit : String) (output : String) : String × Option String :=
  fATKeys fm arrayTableKeys currentPath currentIndent indentUnit
    (sortStrings (keysOf arrayTableKeys)) output

/-- `formatRegularTables` of formatter.go. -/
def formatRegularTables
    (fm : GoMap → List String → String → String → String → String × Option String)
    (dataMap : GoMap) :
    List String → List String → String → String → String → String × Option String
  | [], _, _, _, output => (output, none)
  | k :: restKeys, currentPath, currentIndent, indentUnit, output =>
    let fullPath := currentPath ++ [k]
    let fullPathString := dotJoin fullPath
    match mapGet dataMap k with
    | .vTable subMap =>
      let output1 := if sepRT output then output ++ "\n" else output
      let output2 := output1 ++ currentIndent ++ "[" ++ fullPathString ++ "]\n"
      match fm subMap fullPath (currentIndent ++ indentUnit) indentUnit output2 with
      | (output3, some e) =>
        (output3, some ("formatting table " ++ apos ++ fullPathString ++ apos ++ ": " ++ e))
      | (output3, none) =>
        formatRegularTables fm dataMap restKeys currentPath currentIndent indentUnit output3
    | v =>
      (output, some ("internal error: item for table key " ++ apos ++ fullPathString
        ++ apos ++ " is not a map[string]interface \x7b\x7d (got " ++ goTypeName v ++ ")"))

/-- `formatMap` of formatter.go, with a fuel bound on table-nesting depth.
Fuel 0 yields a sentinel error that the entry point never reaches
(see `needMap` and `formatMapF_fuel_irrel`). -/
def formatMapF : Nat → GoMap → List String → String → String → String → String × Option String
  | 0, _, _, _, _, output => (output, some "recursion fuel exhausted")
  | fuel + 1, dataMap, currentPath, currentIndent, indentUnit, output =>
    match categorize dataMap currentPath with
    | .error e => (output, some e)
    | .ok c =>
      let output1 := formatSimpleKeys dataMap c.simpleKeys c.maxKeyLen currentIndent output
      match formatArrayTables (formatMapF fuel) c.arrayTableKeys currentPath
          currentIndent indentUnit output1 with
      | (output2, some e) => (output2, some e)
      | (output2, none) =>
        formatRegularTables (formatMapF fuel) dataMap c.tableKeys currentPath
          currentIndent indentUnit output2

mutual
/-- Fuel sufficient to render every table reachable inside a value. -/
def needValue : GoValue → Nat
  | .vArr l => needList l
  | .vTable m => needMap m
  | _ => 0

def needList : List GoValue → Nat
  | [] => 0
  | v :: rest => max (needValue v) (needList rest)

/-- Fuel sufficient to render a map (always at least 1). -/
def needMap : GoMap → Nat
  | [] => 1
  | (_, v) :: rest => max (1 + needValue v) (needMap rest)
end

/-- `Format` of formatter.go: render into an internal buffer; on success the
buffer is flushed to the caller-supplied writer, on error nothing is written
(the partially filled internal buffer is discarded). The first component is
what reaches the writer, the second the returned error. -/
def Format (data : GoMap) (indentUnit : String) : String × Option String :=
  match formatMapF (needMap data + 1) data [] "" indentUnit "" with
  | (_, some e) => ("", some e)
  | (buf, none) => (buf, none)

/-- Concatenation of a list of strings (explicit fold, for easy induction). -/
def strConcat : List String → String
  | [] => ""
  | s :: rest => s ++ strConcat rest

/-- Does pass 1 classify key `k` of `m` as a simple key? (Mirrors the branch
structure of `categorizeLoop`, as a pure predicate of the looked-up value.) -/
def isSimpleKey (m : GoMap) (k : String) : Bool :=
  match mapGet m k with
  | .vArr arr =>
    if arr.length > 0 then
      match scanArrayItems arr false with
      | .ok false => true
      | _ => false
    else true
  | .vTable _ => false
  | _ => true

/-- Does pass 1 classify key `k` of `m` as a sub-table key? -/
def isTableKey (m : GoMap) (k : String) : Bool :=
  match mapGet m k with
  | .vTable _ => true
  | _ => false

/-- Does pass 1 classify key `k` of `m` as an array-of-tables key? -/
def isATKey (m : GoMap) (k : String) : Bool :=
  match mapGet m k with
  | .vArr arr =>
    if arr.length > 0 then
      match scanArrayItems arr false with
      | .ok true => true
      | _ => false
    else false
  | _ => false

/-- Does pass 1 raise the mixed-array error on key `k` of `m`? -/
def isMixedKey (m : GoMap) (k : String) : Bool :=
  match mapGet m k with
  | .vArr arr =>
    if arr.length > 0 then
      match scanArrayItems arr false with
      | .error _ => true
      | _ => false
    else false
  | _ => false

/-- The array stored under `k` (only meaningful when `isATKey` holds). -/
def arrOf (m : GoMap) (k : String) : List GoValue :=
  match mapGet m k with
  | .vArr arr => arr
  | _ => []

/-- The result of pass 1 on `exThreeKindsDoc`. -/
def cEx : Categorized :=
  ⟨["a", "zz"], 2, ["table"],
   [("arr", [.vTable [("x", .vInt 1)], .vTable [("y", .vInt 2)]])]⟩

/-- A rendering function only ever appends to the buffer it is given. -/
def GrowsBuffer
    (fm : GoMap → List String → String → String → String → String × Option String) : Prop :=
  ∀ m p ind unit out, ∃ d, (fm m p ind unit out).1 = out ++ d

/-- Substring containment, as Go `strings.Contains(e, sub)`. -/
def strContains (e sub : String) : Prop := sub.data <:+: e.data

/-- The constant part of the mixed-array error message. -/
def mixMsg : String := "arrays cannot mix tables and non-tables"

/-- The key-naming part of the mixed-array error message. -/
def keyTag (q : List String) : String := "key " ++ apos ++ dotJoin q ++ apos

/-- An error message that reports a mixed array: it contains the constant
message text and names the full dotted path of a key satisfying `P`. -/
def MixShaped (P : List String → Prop) (e : String) : Prop :=
  strContains e mixMsg ∧ ∃ q, P q ∧ strContains e (keyTag q)

/-- An array whose scan in pass 1 raises the mixed-array error: a table
element appears before the first non-table element. -/
def orderedMixed (arr : List GoValue) : Prop := scanArrayItems arr false = .error ()

/-- `MixedAt m p q`: starting from map `m` reached at path `p`, the renderer
reaches (through sub-tables and array-of-tables elements, exactly the maps
`formatMap` recurses into) a table level owning a key whose array raises the
mixed-array error; `q` is the full path of that key. -/
inductive MixedAt : GoMap → List String → List String → Prop where
  | here {m : GoMap} {p : List String} {k : String} {arr : List GoValue} :
      mapGet m k = .vArr arr → orderedMixed arr → MixedAt m p (p ++ [k])
  | inTable {m : GoMap} {p : List String} {k : String} {sub : GoMap} {q : List String} :
      mapGet m k = .vTable sub → MixedAt sub (p ++ [k]) q → MixedAt m p q
  | inArrayTable {m : GoMap} {p : List String} {k : String} {arr : List GoValue}
      {sub : GoMap} {q : List String} :
      mapGet m k = .vArr arr → arr ≠ [] → scanArrayItems arr false = .ok true →
      GoValue.vTable sub ∈ arr → MixedAt sub (p ++ [k]) q → MixedAt m p q

/-- Pointwise equality of documents as key-to-value mappings: same key
multiset and, recursively, equal values under each key (first occurrence,
matching Go map semantics where keys are unique). Scalars must be equal,
array elements are related in order, table entries may be permuted. -/
inductive EquivV : GoValue → GoValue → Prop where
  | str (s : String) : EquivV (.vStr s) (.vStr s)
  | int (i : Int) : EquivV (.vInt i) (.vInt i)
  | float (g : String) : EquivV (.vFloat g) (.vFloat g)
  | bool (b : Bool) : EquivV (.vBool b) (.vBool b)
  | time (t : String) : EquivV (.vTime t) (.vTime t)
  | nil : EquivV .vNil .vNil
  | arr {l1 l2 : List GoValue} :
      l1.length = l2.length →
      (∀ v1 v2, (v1, v2) ∈ l1.zip l2 → EquivV v1 v2) →
      EquivV (.vArr l1) (.vArr l2)
  | table {m1 m2 : GoMap} :
      (keysOf m1).Perm (keysOf m2) →
      (∀ k v1 v2, List.lookup k m1 = some v1 → List.lookup k m2 = some v2 → EquivV v1 v2) →
      EquivV (.vTable m1) (.vTable m2)

/-- Two documents equal as key-to-value mappings. -/
def EquivM (m1 m2 : GoMap) : Prop := EquivV (.vTable m1) (.vTable m2)

/-- Example: one document in two entry orders. -/
def exPermDoc1 : GoMap := [("b", .vInt 1), ("a", .vStr "x")]

/-- Example: the same document as `exPermDoc1`, entries permuted. -/
def exPermDoc2 : GoMap := [("a", .vStr "x"), ("b", .vInt 1)]

/-- Example: a mixed array whose first element is not a table. -/
def exMixedOrderDoc : GoMap := [("k", .vArr [.vInt 1, .vTable []])]

/-- Example: a mixed array whose first element is a table. -/
def exMixedDoc : GoMap :=
  [("bad_arr", .vArr [.vTable [("a", .vInt 1)], .vStr "not a map"]),
   ("key_before", .vStr "value")]

/-- Example: a document with all three key kinds at the root. -/
def exThreeKindsDoc : GoMap :=
  [("zz", .vInt 7), ("table", .vTable [("b", .vBool true)]), ("a", .vStr "x"),
   ("arr", .vArr [.vTable [("x", .vInt 1)], .vTable [("y", .vInt 2)]])]

/-! ### Basic lemmas -/

theorem byteLen_append (a b : String) : byteLen (a ++ b) = byteLen a + byteLen b := by
  simp [byteLen, byteLenL, String.data_append]

theorem utf8Size_space : Char.utf8Size (Char.ofNat 32) = 1 := by decide

theorem byteLen_padOf (maxKeyLen : Nat) (k : String) :
    byteLen (padOf maxKeyLen k) = maxKeyLen - byteLen k := by
  show ((List.replicate (maxKeyLen - byteLen k) (Char.ofNat 32)).map Char.utf8Size).sum
      = maxKeyLen - byteLen k
  simp [List.map_replicate, utf8Size_space]

theorem strContains_append_left {e sub : String} (p : String) (h : strContains e sub) :
    strContains (p ++ e) sub := by
  rcases h with ⟨s, t, hst⟩
  exact ⟨p.data ++ s, t, by simp [String.data_append, ← hst]⟩

theorem strContains_of_append_right (a b : String) : strContains (a ++ b) b :=
  ⟨a.data, [], by simp [String.data_append]⟩

theorem strContains_of_append_left (a b : String) : strContains (a ++ b) a :=
  ⟨[], b.data, by simp [String.data_append]⟩

/-! ### Claim theorems: value rendering and atomicity -/

/-- C6: the value renderer maps each scalar kind to its fixed literal form:
integer 123 to 123, the float 123.45 (carried as its Go %g rendering) to
123.45, boolean false to false, nil to the two-character quoted placeholder,
the string hello to its double-quoted form, and the empty array to []. -/
theorem c6_scalar_literal_forms :
    formatTomlValue (.vInt 123) = "123"
  ∧ formatTomlValue (.vFloat "123.45") = "123.45"
  ∧ formatTomlValue (.vBool false) = "false"
  ∧ formatTomlValue .vNil = String.mk [Char.ofNat 39, Char.ofNat 39]
  ∧ formatTomlValue (.vStr "hello") = String.singleton (Char.ofNat 34) ++ "hello"
      ++ String.singleton (Char.ofNat 34)
  ∧ formatTomlValue (.vArr []) = "[]" := by
  refine ⟨by decide, by decide, by decide, by decide, by decide, by decide⟩

/-- C7: rendering is atomic on failure: whenever `Format` returns an error,
zero bytes reach the caller-supplied output (the partially filled internal
buffer is discarded, never flushed). -/
theorem c7_atomic_on_failure (data : GoMap) (indentUnit : String)
    (h : (Format data indentUnit).2.isSome = true) : (Format data indentUnit).1 = "" := by
  revert h
  unfold Format
  rcases formatMapF (needMap data + 1) data [] "" indentUnit "" with ⟨buf, e⟩
  cases e <;> simp

/-- Witness for C7 at a failing document. -/
theorem c7_atomic_on_failure_witness :
    (Format exMixedDoc "").2.isSome = true ∧ (Format exMixedDoc "").1 = "" :=
  ⟨by decide, c7_atomic_on_failure exMixedDoc "" (by decide)⟩

/-- Counterexample to C1 as stated: this document holds, at key path `k`, an
array with one table element and one non-table element, yet rendering does
not fail (the claim requires failure regardless of element order; the code
only fails when a table element precedes the first non-table element, and
here the non-table element comes first, so the array is classified simple). -/
theorem c1_counterexample :
    (Format exMixedOrderDoc "").2 = none
  ∧ (Format exMixedOrderDoc "").1
      = "k = [1, <<UNKNOWN TYPE map[string]interface \x7b\x7d>>]\n" :=
  ⟨by decide, by decide⟩

/-! ### Characterization of pass 1 (key classification) -/

theorem categorizeLoop_ok_eq (m : GoMap) (path : List String) :
    ∀ (ks : List String) (acc c : Categorized),
      categorizeLoop m path ks acc = .ok c →
      c.simpleKeys = acc.simpleKeys ++ ks.filter (isSimpleKey m)
      ∧ c.maxKeyLen
          = (ks.filter (isSimpleKey m)).foldl (fun n k => max n (byteLen k)) acc.maxKeyLen
      ∧ c.tableKeys = acc.tableKeys ++ ks.filter (isTableKey m)
      ∧ c.arrayTableKeys
          = acc.arrayTableKeys ++ (ks.filter (isATKey m)).map (fun k => (k, arrOf m k))
  | [], acc, c, h => by
    cases h
    simp
  | k :: rest, acc, c, h => by
    rcases hv : mapGet m k with s | i | g | b | t | _ | arr | entries
    case vArr =>
      by_cases hlen : arr.length > 0
      · rcases hscan : scanArrayItems arr false with e | bb
        · simp [categorizeLoop, hv, if_pos hlen, hscan] at h
        · cases bb
          · simp only [categorizeLoop, hv, if_pos hlen, hscan] at h
            have ih := categorizeLoop_ok_eq m path rest _ _ h
            simp only [List.filter_cons, isSimpleKey, isTableKey, isATKey, hv,
              if_pos hlen, hscan] at ih ⊢
            simpa using ih
          · simp only [categorizeLoop, hv, if_pos hlen, hscan] at h
            have ih := categorizeLoop_ok_eq m path rest _ _ h
            have ha : arrOf m k = arr := by simp [arrOf, hv]
            simp only [List.filter_cons, isSimpleKey, isTableKey, isATKey, hv,
              if_pos hlen, hscan, ha] at ih ⊢
            simpa [ha] using ih
      · simp only [categorizeLoop, hv, if_neg hlen] at h
        have ih := categorizeLoop_ok_eq m path rest _ _ h
        simp only [List.filter_cons, isSimpleKey, isTableKey, isATKey, hv,
          if_neg hlen] at ih ⊢
        simpa using ih
    case vTable =>
      simp only [categorizeLoop, hv] at h
      have ih := categorizeLoop_ok_eq m path rest _ _ h
      simp only [List.filter_cons, isSimpleKey, isTableKey, isATKey, hv] at ih ⊢
      simpa using ih
    all_goals
      simp only [categorizeLoop, hv] at h
      have ih := categorizeLoop_ok_eq m path rest _ _ h
      simp only [List.filter_cons, isSimpleKey, isTableKey, isATKey, hv] at ih ⊢
      simpa using ih

/-- Pass 1 characterized from the empty accumulators. -/
theorem categorize_ok_eq {m : GoMap} {path : List String} {c : Categorized}
    (h : categorize m path = .ok c) :
    c.simpleKeys = (sortStrings (keysOf m)).filter (isSimpleKey m)
    ∧ c.maxKeyLen
        = ((sortStrings (keysOf m)).filter (isSimpleKey m)).foldl
            (fun n k => max n (byteLen k)) 0
    ∧ c.tableKeys = (sortStrings (keysOf m)).filter (isTableKey m)
    ∧ c.arrayTableKeys
        = ((sortStrings (keysOf m)).filter (isATKey m)).map (fun k => (k, arrOf m k)) := by
  simpa using categorizeLoop_ok_eq m path (sortStrings (keysOf m)) Categorized.init c h

theorem foldl_max_init_le : ∀ (l : List String) (n : Nat),
    n ≤ l.foldl (fun n k => max n (byteLen k)) n
  | [], _ => le_refl _
  | k :: rest, n =>
    le_trans (le_max_left n (byteLen k)) (foldl_max_init_le rest _)

theorem mem_le_foldl_max : ∀ (l : List String) (n : Nat) (k : String), k ∈ l →
    byteLen k ≤ l.foldl (fun n k => max n (byteLen k)) n
  | k' :: rest, n, k, h => by
    rcases List.mem_cons.mp h with rfl | h
    · exact le_trans (le_max_right n (byteLen k)) (foldl_max_init_le rest _)
    · exact mem_le_foldl_max rest _ k h

/-- Every simple key at a level is at most the level's computed maximum. -/
theorem simpleKey_le_maxKeyLen {m : GoMap} {path : List String} {c : Categorized}
    (hc : categorize m path = .ok c) : ∀ k ∈ c.simpleKeys, byteLen k ≤ c.maxKeyLen := by
  obtain ⟨hs, hmax, -, -⟩ := categorize_ok_eq hc
  intro k hk
  rw [hs] at hk
  rw [hmax]
  exact mem_le_foldl_max _ 0 k hk

/-- C9: for every table level, the padding width computed for each simple key
is non-negative: the maximum simple-key length is taken over exactly the
simple keys of that level, so `maxKeyLen - len(k)` never goes negative and
the space-repetition in `formatSimpleKeys` cannot panic. -/
theorem c9_padding_nonneg (m : GoMap) (path : List String) (c : Categorized)
    (hc : categorize m path = .ok c) :
    ∀ k ∈ c.simpleKeys,
      byteLen k ≤ c.maxKeyLen ∧ (0 : Int) ≤ (c.maxKeyLen : Int) - (byteLen k : Int) := by
  intro k hk
  have h := simpleKey_le_maxKeyLen hc k hk
  exact ⟨h, by omega⟩

/-- Witness for C9 at a concrete document. -/
theorem c9_padding_nonneg_witness :
    categorize exThreeKindsDoc [] = .ok cEx
    ∧ (byteLen "a" ≤ cEx.maxKeyLen
        ∧ (0 : Int) ≤ (cEx.maxKeyLen : Int) - (byteLen "a" : Int)) :=
  ⟨rfl, c9_padding_nonneg exThreeKindsDoc [] cEx rfl "a" (by decide)⟩

/-! ### Simple-key alignment -/

theorem formatSimpleKeys_eq (m : GoMap) (maxKeyLen : Nat) (currentIndent : String) :
    ∀ (ks : List String) (output : String),
      formatSimpleKeys m ks maxKeyLen currentIndent output
        = output ++ strConcat (ks.map (simpleLine m maxKeyLen currentIndent))
  | [], output => by simp [formatSimpleKeys, strConcat]
  | k :: rest, output => by
    rw [formatSimpleKeys, formatSimpleKeys_eq m maxKeyLen currentIndent rest]
    simp [strConcat, ← String.append_assoc]

/-- C3: each simple key is written as one line
indent, key, right-padding to the level maximum, then an equals sign framed
by single spaces, then the value and a newline; the byte column of the
equals sign is (indent length) + (max key length at that level) + 1, the
same for every simple key of the block. -/
theorem c3_alignment (m : GoMap) (path : List String) (c : Categorized)
    (currentIndent : String) (hc : categorize m path = .ok c) :
    (∀ output, formatSimpleKeys m c.simpleKeys c.maxKeyLen currentIndent output
        = output ++ strConcat (c.simpleKeys.map (simpleLine m c.maxKeyLen currentIndent)))
    ∧ ∀ k ∈ c.simpleKeys,
        simpleLine m c.maxKeyLen currentIndent k
          = (currentIndent ++ k ++ padOf c.maxKeyLen k ++ " ")
            ++ ("=" ++ (" " ++ formatTomlValue (mapGet m k) ++ "\n"))
        ∧ byteLen (currentIndent ++ k ++ padOf c.maxKeyLen k ++ " ")
            = byteLen currentIndent + c.maxKeyLen + 1 := by
  refine ⟨formatSimpleKeys_eq m c.maxKeyLen currentIndent c.simpleKeys, ?_⟩
  intro k hk
  constructor
  · apply String.ext
    simp [simpleLine, String.data_append]
  · have hle := simpleKey_le_maxKeyLen hc k hk
    have h1 : byteLen " " = 1 := by decide
    simp only [byteLen_append, byteLen_padOf, h1]
    omega

/-- Witness for C3 at a concrete document and key. -/
theorem c3_alignment_witness :
    categorize exThreeKindsDoc [] = .ok cEx
    ∧ (simpleLine exThreeKindsDoc cEx.maxKeyLen "" "a"
          = ("" ++ "a" ++ padOf cEx.maxKeyLen "a" ++ " ")
            ++ ("=" ++ (" " ++ formatTomlValue (mapGet exThreeKindsDoc "a") ++ "\n"))
        ∧ byteLen ("" ++ "a" ++ padOf cEx.maxKeyLen "a" ++ " ")
            = byteLen "" + cEx.maxKeyLen + 1) :=
  ⟨rfl, (c3_alignment exThreeKindsDoc [] cEx "" rfl).2 "a" (by decide)⟩

/-! ### The string comparator agrees with the lexicographic order -/

theorem listLtB_iff : ∀ x y : List Char, listLtB x y = true ↔ List.Lex (· < ·) x y
  | [], [] => by
    simp only [listLtB, Bool.false_eq_true, false_iff]
    intro h
    cases h
  | [], b :: bs => by
    simp only [listLtB, true_iff]
    exact List.Lex.nil
  | a :: as, [] => by
    simp only [listLtB, Bool.false_eq_true, false_iff]
    intro h
    cases h
  | a :: as, b :: bs => by
    by_cases hab : a < b
    · simp only [listLtB, if_pos hab, true_iff]
      exact List.Lex.rel hab
    · by_cases hba : b < a
      · simp only [listLtB, if_neg hab, if_pos hba, Bool.false_eq_true, false_iff]
        intro h
        cases h with
        | cons h => exact lt_irrefl _ hba
        | rel h => exact hab h
      · have heq : a = b := le_antisymm (not_lt.mp hba) (not_lt.mp hab)
        subst heq
        simp only [listLtB, if_neg hab, if_neg hba]
        rw [listLtB_iff as bs]
        constructor
        · intro h
          exact List.Lex.cons h
        · intro h
          cases h with
          | cons h => exact h
          | rel h => exact absurd h hab

theorem strLtB_iff (a b : String) : strLtB a b = true ↔ a < b := by
  rw [strLtB, listLtB_iff, String.lt_iff_toList_lt]
  exact Iff.rfl

theorem strLeB_iff (a b : String) : strLeB a b = true ↔ a ≤ b := by
  rw [strLeB, Bool.not_eq_true', ← not_lt]
  constructor
  · intro h hlt
    exact absurd ((strLtB_iff b a).mpr hlt) (by simp [h])
  · intro h
    rcases hx : strLtB b a with - | -
    · rfl
    · exact absurd ((strLtB_iff b a).mp hx) h

instance : IsTotal String (fun a b => strLeB a b = true) :=
  ⟨fun a b => by
    rcases le_total a b with h | h
    · exact Or.inl ((strLeB_iff a b).mpr h)
    · exact Or.inr ((strLeB_iff b a).mpr h)⟩

instance : IsTrans String (fun a b => strLeB a b = true) :=
  ⟨fun a b c hab hbc =>
    (strLeB_iff a c).mpr (le_trans ((strLeB_iff a b).mp hab) ((strLeB_iff b c).mp hbc))⟩

instance : IsAntisymm String (fun a b => strLeB a b = true) :=
  ⟨fun a b hab hba => le_antisymm ((strLeB_iff a b).mp hab) ((strLeB_iff b a).mp hba)⟩

theorem sortStrings_sorted (l : List String) : List.Sorted (· ≤ ·) (sortStrings l) :=
  (List.sorted_insertionSort _ l).imp fun h => (strLeB_iff _ _).mp h

theorem sortStrings_perm (l : List String) : (sortStrings l).Perm l :=
  List.perm_insertionSort _ l

theorem sortStrings_nodup {l : List String} (h : l.Nodup) : (sortStrings l).Nodup :=
  ((sortStrings_perm l).nodup_iff).mpr h

theorem sortStrings_sorted_lt {l : List String} (h : l.Nodup) :
    List.Sorted (· < ·) (sortStrings l) :=
  (sortStrings_sorted l).lt_of_le (sortStrings_nodup h)

theorem sortStrings_eq_of_sorted {l : List String} (h : List.Sorted (· ≤ ·) l) :
    sortStrings l = l :=
  List.Sorted.insertionSort_eq (h.imp fun hle => (strLeB_iff _ _).mpr hle)

/-! ### Key ordering (C2) -/

/-- C2: at every table level, the three key classes are each strictly
alphabetically sorted (simple keys, array-table keys as consumed after their
re-sort, and sub-table keys), and the renderer emits the three sections in
the fixed order simple pairs, then array-tables, then tables. The statement
is for an arbitrary level (map, path, indent), hence holds at every nesting
depth; no input switches it off. -/
theorem c2_key_ordering (m : GoMap) (path : List String) (c : Categorized)
    (hnd : (keysOf m).Nodup) (hc : categorize m path = .ok c) :
    List.Sorted (· < ·) c.simpleKeys
    ∧ List.Sorted (· < ·) (sortStrings (keysOf c.arrayTableKeys))
    ∧ List.Sorted (· < ·) c.tableKeys
    ∧ ∀ (fuel : Nat) (currentIndent indentUnit output : String),
        formatMapF (fuel + 1) m path currentIndent indentUnit output
          = (match formatArrayTables (formatMapF fuel) c.arrayTableKeys path currentIndent
                indentUnit
                (formatSimpleKeys m c.simpleKeys c.maxKeyLen currentIndent output) with
             | (output2, some e) => (output2, some e)
             | (output2, none) =>
               formatRegularTables (formatMapF fuel) m c.tableKeys path currentIndent
                 indentUnit output2) := by
  obtain ⟨hs, -, ht, hat⟩ := categorize_ok_eq hc
  have hsorted : List.Sorted (· < ·) (sortStrings (keysOf m)) := sortStrings_sorted_lt hnd
  have hatkeys : keysOf c.arrayTableKeys = (sortStrings (keysOf m)).filter (isATKey m) := by
    simp [hat, keysOf, List.map_map, Function.comp_def]
  refine ⟨?_, ?_, ?_, ?_⟩
  · rw [hs]
    exact hsorted.sublist (List.filter_sublist _)
  · rw [hatkeys, sortStrings_eq_of_sorted
      (List.Sorted.le_of_lt (hsorted.sublist (List.filter_sublist _)))]
    exact hsorted.sublist (List.filter_sublist _)
  · rw [ht]
    exact hsorted.sublist (List.filter_sublist _)
  · intro fuel currentIndent indentUnit output
    simp only [formatMapF, hc]

/-- Witness for C2 at a concrete document. -/
theorem c2_key_ordering_witness :
    (keysOf exThreeKindsDoc).Nodup
    ∧ List.Sorted (· < ·) cEx.simpleKeys
    ∧ List.Sorted (· < ·) (sortStrings (keysOf cEx.arrayTableKeys))
    ∧ List.Sorted (· < ·) cEx.tableKeys :=
  ⟨by decide,
   (c2_key_ordering exThreeKindsDoc [] cEx (by decide) rfl).1,
   (c2_key_ordering exThreeKindsDoc [] cEx (by decide) rfl).2.1,
   (c2_key_ordering exThreeKindsDoc [] cEx (by decide) rfl).2.2.1⟩

/-! ### Separator logic (C5) -/

theorem byteLenL_cons (c : Char) (l : List Char) :
    byteLenL (c :: l) = Char.utf8Size c + byteLenL l := by
  simp [byteLenL]

theorem byteLenL_append (a b : List Char) : byteLenL (a ++ b) = byteLenL a + byteLenL b := by
  simp [byteLenL]

theorem byteLenL_pos {l : List Char} (h : l ≠ []) : 0 < byteLenL l := by
  rcases l with - | ⟨c, t⟩
  · exact absurd rfl h
  · rw [byteLenL_cons]
    have := Char.utf8Size_pos c
    omega

theorem byteLenL_dropWhile_le (p : Char → Bool) :
    ∀ l : List Char, byteLenL (l.dropWhile p) ≤ byteLenL l
  | [] => le_refl _
  | c :: t => by
    rw [List.dropWhile_cons]
    by_cases hp : p c = true
    · rw [if_pos hp, byteLenL_cons]
      have h1 := byteLenL_dropWhile_le p t
      have h2 := Char.utf8Size_pos c
      omega
    · rw [if_neg hp]

theorem dropWhile_ne_nil_of_exists {p : Char → Bool} :
    ∀ {l : List Char}, (∃ c ∈ l, p c = false) → l.dropWhile p ≠ []
  | [], h => by rcases h with ⟨c, hc, -⟩; cases hc
  | c :: t, h => by
    rw [List.dropWhile_cons]
    by_cases hp : p c = true
    · rw [if_pos hp]
      rcases h with ⟨d, hd, hdp⟩
      rcases List.mem_cons.mp hd with rfl | hd
      · exact absurd hp (by simp [hdp])
      · exact dropWhile_ne_nil_of_exists ⟨d, hd, hdp⟩
    · rw [if_neg hp]
      simp

/-- `trimmedLen` computed on the reversed data. -/
theorem trimmedLen_eq (output : String) :
    trimmedLen output = byteLenL (output.data.reverse.dropWhile isCutChar) := by
  show byteLenL ((output.data.reverse.dropWhile isCutChar).reverse) = _
  simp [byteLenL, List.map_reverse, List.sum_reverse]

theorem trimmedLen_pos {output : String}
    (h : ∃ c ∈ output.data, isCutChar c = false) : 0 < trimmedLen output := by
  rw [trimmedLen_eq]
  refine byteLenL_pos (dropWhile_ne_nil_of_exists ?_)
  rcases h with ⟨c, hc, hcp⟩
  exact ⟨c, List.mem_reverse.mpr hc, hcp⟩

theorem trimmedLen_lt {output : String} {ys : List Char}
    (h : output.data = ys ++ ['\n']) : trimmedLen output < byteLen output := by
  rw [trimmedLen_eq, byteLen, h]
  have hrev : (ys ++ ['\n']).reverse = '\n' :: ys.reverse := by simp
  have hcut : isCutChar '\n' = true := by decide
  rw [hrev, List.dropWhile_cons, if_pos hcut]
  have h1 := byteLenL_dropWhile_le isCutChar ys.reverse
  have h2 : byteLenL ys.reverse = byteLenL ys := by
    simp [byteLenL, List.map_reverse, List.sum_reverse]
  have h3 : byteLenL (ys ++ ['\n']) = byteLenL ys + 1 := by
    rw [byteLenL_append]
    have : byteLenL ['\n'] = 1 := by decide
    omega
  omega

theorem byteLen_pos_of_ends_nl {output : String} {ys : List Char}
    (h : output.data = ys ++ ['\n']) : 0 < byteLen output := by
  rw [byteLen, h]
  exact byteLenL_pos (by simp)

/-- After the separator decision, a buffer that ends in a newline and is not
all-whitespace always ends in a blank line. -/
theorem hasSuffixNN_after_sep {output : String} {ys : List Char}
    (hys : output.data = ys ++ ['\n']) :
    hasSuffixNN (if (!hasSuffixNN output) = true then output ++ "\n" else output) = true := by
  rcases hnn : hasSuffixNN output with - | -
  · show (['\n', '\n'].isSuffixOf (output ++ "\n").data) = true
    rw [String.data_append, hys]
    have h : (ys ++ ['\n']) ++ "\n".data = ys ++ ['\n', '\n'] := by simp
    rw [h, List.isSuffixOf_iff_suffix]
    exact ⟨ys, rfl⟩
  · exact hnn

/-- C5: a blank-line separator is inserted before a section header exactly
when the accumulated output is non-empty and does not already end in a blank
line. On a fresh (empty) buffer nothing is inserted; on any buffer the
renderer can actually accumulate (non-empty output contains a
non-whitespace character and ends in a newline) both separator decisions
equal the negation of an ends-in-blank-line test, and after the separator
step the buffer always ends in a blank line, so each subsequent element of
the same array-table key (and each transition from a previous section) is
preceded by a blank line. -/
theorem c5_separator (output : String) (i : Nat) :
    (output = "" → sepAT output i = false ∧ sepRT output = false)
    ∧ ((∃ c ∈ output.data, isCutChar c = false) →
       (∃ ys, output.data = ys ++ ['\n']) →
         sepAT output i = !hasSuffixNN output
         ∧ sepRT output = !hasSuffixNN output
         ∧ hasSuffixNN (if sepAT output i then output ++ "\n" else output) = true
         ∧ hasSuffixNN (if sepRT output then output ++ "\n" else output) = true) := by
  constructor
  · rintro rfl
    exact ⟨rfl, rfl⟩
  · rintro hex ⟨ys, hys⟩
    have h0 : 0 < byteLen output := byteLen_pos_of_ends_nl hys
    have ht1 : 0 < trimmedLen output := trimmedLen_pos hex
    have ht2 : trimmedLen output < byteLen output := trimmedLen_lt hys
    have hAT : sepAT output i = !hasSuffixNN output := by
      simp [sepAT, h0, ht1, ht2]
    have hRT : sepRT output = !hasSuffixNN output := by
      simp [sepRT, h0, ht1, ht2, Nat.ne_of_lt ht2]
    refine ⟨hAT, hRT, ?_, ?_⟩
    · rw [hAT]
      exact hasSuffixNN_after_sep hys
    · rw [hRT]
      exact hasSuffixNN_after_sep hys

/-- Witness for C5 at a concrete buffer state. -/
theorem c5_separator_witness :
    ((∃ c ∈ ("a = 1\n" : String).data, isCutChar c = false)
      ∧ (∃ ys, ("a = 1\n" : String).data = ys ++ ['\n']))
    ∧ (sepAT "a = 1\n" 1 = !hasSuffixNN "a = 1\n"
       ∧ sepRT "a = 1\n" = !hasSuffixNN "a = 1\n"
       ∧ hasSuffixNN (if sepAT "a = 1\n" 1 then "a = 1\n" ++ "\n" else "a = 1\n") = true
       ∧ hasSuffixNN (if sepRT "a = 1\n" then "a = 1\n" ++ "\n" else "a = 1\n") = true) :=
  ⟨⟨by decide, ⟨['a', ' ', '=', ' ', '1'], by decide⟩⟩,
   (c5_separator "a = 1\n" 1).2 (by decide) ⟨['a', ' ', '=', ' ', '1'], by decide⟩⟩

/-! ### The buffer only grows -/

theorem grow_trans {a b c : String} (h1 : ∃ d, b = a ++ d) (h2 : ∃ d, c = b ++ d) :
    ∃ d, c = a ++ d := by
  rcases h1 with ⟨d1, rfl⟩
  rcases h2 with ⟨d2, rfl⟩
  exact ⟨d1 ++ d2, String.append_assoc a d1 d2⟩

theorem grow_refl (a : String) : ∃ d, a = a ++ d := ⟨"", by simp⟩

theorem grow_append (a x : String) : ∃ d, a ++ x = a ++ d := ⟨x, rfl⟩

theorem grow_sep (a : String) (b : Bool) : ∃ d, (if b then a ++ "\n" else a) = a ++ d := by
  cases b
  · exact grow_refl a
  · exact grow_append a "\n"

theorem fATItems_grows {fm} (hfm : GrowsBuffer fm) (fp : List String) (fps ind unit : String) :
    ∀ (items : List GoValue) (i : Nat) (out : String),
      ∃ d, (fATItems fm fp fps ind unit items i out).1 = out ++ d
  | [], _, out => grow_refl out
  | item :: rest, i, out => by
    rcases item with s | iv | g | b | t | - | arr | sub
    case vTable =>
      rw [fATItems]
      have h1 : ∃ d, ((if sepAT out i then out ++ "\n" else out)
          ++ ind ++ "[[" ++ fps ++ "]]\n") = out ++ d := by
        refine grow_trans (grow_sep out (sepAT out i)) ?_
        refine grow_trans (grow_append _ ind) ?_
        exact grow_trans (grow_append _ "[[") (grow_trans (grow_append _ fps) (grow_append _ "]]\n"))
      rcases hres : fm sub fp (ind ++ unit) unit
          ((if sepAT out i then out ++ "\n" else out) ++ ind ++ "[[" ++ fps ++ "]]\n")
        with ⟨o3, e⟩
      have h2 : ∃ d, o3 = ((if sepAT out i then out ++ "\n" else out)
          ++ ind ++ "[[" ++ fps ++ "]]\n") ++ d := by
        have := hfm sub fp (ind ++ unit) unit
          ((if sepAT out i then out ++ "\n" else out) ++ ind ++ "[[" ++ fps ++ "]]\n")
        rwa [hres] at this
      cases e
      · simp only [hres]
        exact grow_trans (grow_trans h1 h2) (fATItems_grows hfm fp fps ind unit rest (i + 1) o3)
      · simp only [hres]
        exact grow_trans h1 h2
    all_goals
      exact grow_refl out

theorem fATKeys_grows {fm} (hfm : GrowsBuffer fm) (atk : List (String × List GoValue))
    (cp : List String) (ind unit : String) :
    ∀ (ks : List String) (out : String),
      ∃ d, (fATKeys fm atk cp ind unit ks out).1 = out ++ d
  | [], out => grow_refl out
  | k :: rest, out => by
    rw [fATKeys]
    rcases hres : fATItems fm (cp ++ [k]) (dotJoin (cp ++ [k])) ind unit
        ((List.lookup k atk).getD []) 0 out with ⟨o1, e⟩
    have h1 : ∃ d, o1 = out ++ d := by
      have := fATItems_grows hfm (cp ++ [k]) (dotJoin (cp ++ [k])) ind unit
        ((List.lookup k atk).getD []) 0 out
      rwa [hres] at this
    cases e
    · simp only [hres]
      exact grow_trans h1 (fATKeys_grows hfm atk cp ind unit rest o1)
    · simp only [hres]
      exact h1

theorem formatRegularTables_grows {fm} (hfm : GrowsBuffer fm) (dataMap : GoMap) :
    ∀ (ks : List String) (cp : List String) (ind unit out : String),
      ∃ d, (formatRegularTables fm dataMap ks cp ind unit out).1 = out ++ d
  | [], _, _, _, out => grow_refl out
  | k :: rest, cp, ind, unit, out => by
    rw [formatRegularTables]
    rcases hv : mapGet dataMap k with s | iv | g | b | t | - | arr | sub
    case vTable =>
      have h1 : ∃ d, ((if sepRT out then out ++ "\n" else out)
          ++ ind ++ "[" ++ dotJoin (cp ++ [k]) ++ "]\n") = out ++ d := by
        refine grow_trans (grow_sep out (sepRT out)) ?_
        refine grow_trans (grow_append _ ind) ?_
        exact grow_trans (grow_append _ "[")
          (grow_trans (grow_append _ (dotJoin (cp ++ [k]))) (grow_append _ "]\n"))
      rcases hres : fm sub (cp ++ [k]) (ind ++ unit) unit
          ((if sepRT out then out ++ "\n" else out) ++ ind ++ "[" ++ dotJoin (cp ++ [k]) ++ "]\n")
        with ⟨o3, e⟩
      have h2 : ∃ d, o3 = ((if sepRT out then out ++ "\n" else out)
          ++ ind ++ "[" ++ dotJoin (cp ++ [k]) ++ "]\n") ++ d := by
        have := hfm sub (cp ++ [k]) (ind ++ unit) unit
          ((if sepRT out then out ++ "\n" else out) ++ ind ++ "[" ++ dotJoin (cp ++ [k]) ++ "]\n")
        rwa [hres] at this
      cases e
      · simp only [hres]
        exact grow_trans (grow_trans h1 h2)
          (formatRegularTables_grows hfm dataMap rest cp ind unit o3)
      · simp only [hres]
        exact grow_trans h1 h2
    all_goals
      exact grow_refl out

theorem formatMapF_grows : ∀ fuel : Nat, GrowsBuffer (formatMapF fuel)
  | 0 => fun m p ind unit out => grow_refl out
  | fuel + 1 => fun m p ind unit out => by
    rw [formatMapF]
    rcases hc : categorize m p with e | c
    · exact grow_refl out
    ·
      have h1 : ∃ d, formatSimpleKeys m c.simpleKeys c.maxKeyLen ind out = out ++ d := by
        rw [formatSimpleKeys_eq]
        exact grow_append _ _
      rcases hat : formatArrayTables (formatMapF fuel) c.arrayTableKeys p ind unit
          (formatSimpleKeys m c.simpleKeys c.maxKeyLen ind out) with ⟨o2, e⟩
      have h2 : ∃ d, o2 = formatSimpleKeys m c.simpleKeys c.maxKeyLen ind out ++ d := by
        have := fATKeys_grows (formatMapF_grows fuel) c.arrayTableKeys p ind unit
          (sortStrings (keysOf c.arrayTableKeys))
          (formatSimpleKeys m c.simpleKeys c.maxKeyLen ind out)
        rw [formatArrayTables] at hat
        rwa [hat] at this
      cases e
      · simp only [hat]
        have h3 := formatRegularTables_grows (formatMapF_grows fuel) m c.tableKeys p ind unit o2
        exact grow_trans (grow_trans h1 h2) h3
      · simp only [hat]
        exact grow_trans h1 h2

/-! ### Array-of-tables rendering (C4) -/

/-- C4: `formatArrayTables` processes the array-table keys in sorted
(alphabetical, strictly so for distinct keys) order; for one key the
elements are traversed in original array order, and each element writes,
after the optional blank-line separator, exactly the header line
indent ++ [[ ++ full dotted path from the document root ++ ]] ++ newline,
then recurses into the element with the extended path and indent. -/
theorem c4_array_tables (atk : List (String × List GoValue)) (path : List String)
    (currentIndent indentUnit : String) :
    (∀ fm output, formatArrayTables fm atk path currentIndent indentUnit output
        = fATKeys fm atk path currentIndent indentUnit (sortStrings (keysOf atk)) output)
    ∧ List.Sorted (· ≤ ·) (sortStrings (keysOf atk))
    ∧ ((keysOf atk).Nodup → List.Sorted (· < ·) (sortStrings (keysOf atk)))
    ∧ (∀ (n : Nat) (k : String) (sub : GoMap) (rest : List GoValue) (i : Nat) (output : String),
        fATItems (formatMapF n) (path ++ [k]) (dotJoin (path ++ [k])) currentIndent indentUnit
            (.vTable sub :: rest) i output
          = (match formatMapF n sub (path ++ [k]) (currentIndent ++ indentUnit) indentUnit
                ((if sepAT output i then output ++ "\n" else output)
                  ++ currentIndent ++ "[[" ++ dotJoin (path ++ [k]) ++ "]]\n") with
             | (o3, some e) =>
               (o3, some ("formatting array table " ++ apos ++ dotJoin (path ++ [k]) ++ apos
                 ++ " index " ++ toString i ++ ": " ++ e))
             | (o3, none) =>
               fATItems (formatMapF n) (path ++ [k]) (dotJoin (path ++ [k])) currentIndent
                 indentUnit rest (i + 1) o3)
        ∧ ∃ tail,
            (fATItems (formatMapF n) (path ++ [k]) (dotJoin (path ++ [k])) currentIndent
              indentUnit (.vTable sub :: rest) i output).1
            = ((if sepAT output i then output ++ "\n" else output)
                ++ currentIndent ++ "[[" ++ dotJoin (path ++ [k]) ++ "]]\n") ++ tail) := by
  refine ⟨fun fm output => rfl, sortStrings_sorted _, fun h => sortStrings_sorted_lt h,
    fun n k sub rest i output => ⟨?_, ?_⟩⟩
  · rw [fATItems]
  · rw [fATItems]
    rcases hres : formatMapF n sub (path ++ [k]) (currentIndent ++ indentUnit) indentUnit
        ((if sepAT output i then output ++ "\n" else output)
          ++ currentIndent ++ "[[" ++ dotJoin (path ++ [k]) ++ "]]\n") with ⟨o3, e⟩
    have h2 : ∃ d, o3 = ((if sepAT output i then output ++ "\n" else output)
        ++ currentIndent ++ "[[" ++ dotJoin (path ++ [k]) ++ "]]\n") ++ d := by
      have := formatMapF_grows n sub (path ++ [k]) (currentIndent ++ indentUnit) indentUnit
        ((if sepAT output i then output ++ "\n" else output)
          ++ currentIndent ++ "[[" ++ dotJoin (path ++ [k]) ++ "]]\n")
      rwa [hres] at this
    cases e
    · simp only [hres]
      exact grow_trans h2
        (fATItems_grows (formatMapF_grows n) (path ++ [k]) (dotJoin (path ++ [k]))
          currentIndent indentUnit rest (i + 1) o3)
    · simp only [hres]
      exact h2

/-- Witness for C4 at a concrete array-table map. -/
theorem c4_array_tables_witness :
    (keysOf cEx.arrayTableKeys).Nodup
    ∧ List.Sorted (· ≤ ·) (sortStrings (keysOf cEx.arrayTableKeys))
    ∧ List.Sorted (· < ·) (sortStrings (keysOf cEx.arrayTableKeys)) :=
  ⟨by decide,
   (c4_array_tables cEx.arrayTableKeys [] "" "  ").2.1,
   (c4_array_tables cEx.arrayTableKeys [] "" "  ").2.2.1 (by decide)⟩

/-! ### Lookup and fuel-bound lemmas -/

theorem lookup_mem {α : Type} : ∀ {m : List (String × α)} {k : String} {v : α},
    List.lookup k m = some v → (k, v) ∈ m
  | (k', v') :: rest, k, v, h => by
    by_cases hk : k = k'
    · subst hk
      simp only [List.lookup, beq_self_eq_true] at h
      cases h
      exact List.mem_cons_self _ _
    · simp only [List.lookup, beq_eq_false_iff_ne.mpr hk] at h
      exact List.mem_cons_of_mem _ (lookup_mem h)

theorem mapGet_lookup {m : GoMap} {k : String} {v : GoValue}
    (h : mapGet m k = v) (hne : v ≠ .vNil) : List.lookup k m = some v := by
  rcases hl : List.lookup k m with - | x
  · rw [mapGet, hl] at h
    exact absurd h.symm hne
  · rw [mapGet, hl] at h
    cases h
    rfl

theorem mem_keysOf_of_mapGet {m : GoMap} {k : String} {v : GoValue}
    (h : mapGet m k = v) (hne : v ≠ .vNil) : k ∈ keysOf m :=
  List.mem_map.mpr ⟨(k, v), lookup_mem (mapGet_lookup h hne), rfl⟩

theorem lookup_map_self {β : Type} (f : String → β) :
    ∀ (L : List String) (k : String), k ∈ L →
      List.lookup k (L.map fun x => (x, f x)) = some (f k)
  | k' :: rest, k, h => by
    by_cases hk : k = k'
    · subst hk
      simp [List.lookup]
    · rcases List.mem_cons.mp h with rfl | h
      · exact absurd rfl hk
      · simp only [List.map_cons, List.lookup, beq_eq_false_iff_ne.mpr hk]
        exact lookup_map_self f rest k h

theorem needMap_pos : ∀ m : GoMap, 1 ≤ needMap m
  | [] => le_refl _
  | (k, v) :: rest => by
    rw [needMap]
    have := needMap_pos rest
    omega

theorem needValue_le_of_lookup : ∀ {m : GoMap} {k : String} {v : GoValue},
    List.lookup k m = some v → 1 + needValue v ≤ needMap m
  | (k', v') :: rest, k, v, h => by
    rw [needMap]
    by_cases hk : k = k'
    · subst hk
      simp only [List.lookup, beq_self_eq_true] at h
      cases h
      omega
    · simp only [List.lookup, beq_eq_false_iff_ne.mpr hk] at h
      have := needValue_le_of_lookup h
      omega

theorem needMap_table_le {m : GoMap} {k : String} {sub : GoMap}
    (h : mapGet m k = .vTable sub) : 1 + needMap sub ≤ needMap m := by
  have := needValue_le_of_lookup (mapGet_lookup h (by intro hh; cases hh))
  simpa [needValue] using this

theorem needValue_mem_le : ∀ {l : List GoValue} {v : GoValue},
    v ∈ l → needValue v ≤ needList l
  | w :: rest, v, h => by
    rw [needList]
    rcases List.mem_cons.mp h with rfl | h
    · omega
    · have := needValue_mem_le h
      omega

theorem needMap_arrTable_le {m : GoMap} {k : String} {arr : List GoValue} {sub : GoMap}
    (h : mapGet m k = .vArr arr) (hmem : GoValue.vTable sub ∈ arr) :
    1 + needMap sub ≤ needMap m := by
  have h1 := needValue_le_of_lookup (mapGet_lookup h (by intro hh; cases hh))
  have h2 := needValue_mem_le hmem
  simp only [needValue] at h1 h2
  omega

/-! ### Mixed-array scans and the classifier error -/

theorem scanArrayItems_cons_table (sub : GoMap) (rest : List GoValue) (b : Bool) :
    scanArrayItems (.vTable sub :: rest) b = scanArrayItems rest true := rfl

theorem scanArrayItems_cons_nontable {w : GoValue} (hw : ∀ sub : GoMap, w ≠ .vTable sub)
    (rest : List GoValue) (b : Bool) :
    scanArrayItems (w :: rest) b = if b then .error () else .ok false := by
  cases w
  case vTable entries => exact absurd rfl (hw entries)
  all_goals rfl

theorem scan_ok_true_all_tables : ∀ {arr : List GoValue} {b : Bool},
    scanArrayItems arr b = .ok true → ∀ item ∈ arr, ∃ sub : GoMap, item = .vTable sub := by
  intro arr
  induction arr with
  | nil => intro b h item hmem; cases hmem
  | cons w rest ih =>
    intro b h item hmem
    by_cases hw : ∃ sub : GoMap, w = .vTable sub
    · rcases hw with ⟨sub, rfl⟩
      rcases List.mem_cons.mp hmem with rfl | hmem
      · exact ⟨_, rfl⟩
      · exact ih (by rwa [scanArrayItems_cons_table] at h) item hmem
    · rw [scanArrayItems_cons_nontable (not_exists.mp hw)] at h
      cases b <;> simp at h

theorem scanArrayItems_ne_nil {arr : List GoValue}
    (h : scanArrayItems arr false = .error ()) : arr ≠ [] := by
  intro h0
  rw [h0] at h
  cases h

theorem isMixedKey_iff {m : GoMap} {k : String} :
    isMixedKey m k = true ↔ ∃ arr, mapGet m k = .vArr arr ∧ orderedMixed arr := by
  unfold isMixedKey
  split
  case h_1 arr heq =>
    constructor
    · intro h
      refine ⟨arr, heq, ?_⟩
      by_cases hlen : arr.length > 0
      · rw [if_pos hlen] at h
        rcases hscan : scanArrayItems arr false with e | bb
        · exact hscan
        · rw [hscan] at h
          cases bb <;> exact absurd h (by simp)
      · rw [if_neg hlen] at h
        exact absurd h (by simp)
    · rintro ⟨arr2, hv2, hmix⟩
      rw [heq] at hv2
      cases hv2
      have hne : arr ≠ [] := scanArrayItems_ne_nil hmix
      rw [if_pos (by simpa [List.length_pos] using hne), hmix]
  case h_2 hx =>
    refine iff_of_false (by simp) ?_
    rintro ⟨arr, hv, -⟩
    exact hx arr hv

theorem isATKey_spec {m : GoMap} {k : String} (h : isATKey m k = true) :
    mapGet m k = .vArr (arrOf m k) ∧ arrOf m k ≠ []
    ∧ scanArrayItems (arrOf m k) false = .ok true := by
  unfold isATKey at h
  split at h
  next arr heq =>
    have ha : arrOf m k = arr := by simp [arrOf, heq]
    split at h
    next hlen =>
      split at h
      next hscan =>
        rw [ha]
        refine ⟨heq, ?_, hscan⟩
        intro h0
        rw [h0] at hlen
        exact absurd hlen (by simp)
      next => cases h
    next => cases h
  next => cases h

theorem isATKey_of (m : GoMap) (k : String) {arr : List GoValue}
    (hv : mapGet m k = .vArr arr) (hne : arr ≠ [])
    (hscan : scanArrayItems arr false = .ok true) : isATKey m k = true := by
  unfold isATKey
  simp only [hv]
  rw [if_pos (by simpa [List.length_pos] using hne), hscan]

theorem isTableKey_iff {m : GoMap} {k : String} :
    isTableKey m k = true ↔ ∃ sub, mapGet m k = .vTable sub := by
  unfold isTableKey
  split
  next sub heq => exact iff_of_true rfl ⟨sub, heq⟩
  next hx =>
    refine iff_of_false (by simp) ?_
    rintro ⟨sub, hv⟩
    exact hx sub hv

theorem isTableKey_of {m : GoMap} {k : String} {sub : GoMap}
    (hv : mapGet m k = .vTable sub) : isTableKey m k = true :=
  isTableKey_iff.mpr ⟨sub, hv⟩

theorem isMixedKey_eq_false {m : GoMap} {k : String}
    (hno : ∀ arr, mapGet m k = .vArr arr → scanArrayItems arr false ≠ .error ()) :
    isMixedKey m k = false := by
  rcases hb : isMixedKey m k with - | -
  · rfl
  · rcases isMixedKey_iff.mp hb with ⟨arr, heq, hsc⟩
    exact absurd hsc (hno arr heq)

theorem categorizeLoop_ok_of_no_mixed (m : GoMap) (path : List String) :
    ∀ (ks : List String) (acc : Categorized),
      (∀ k ∈ ks, isMixedKey m k = false) →
      ∃ c, categorizeLoop m path ks acc = .ok c
  | [], acc, _ => ⟨acc, rfl⟩
  | k :: rest, acc, hno => by
    have hrest : ∀ k2 ∈ rest, isMixedKey m k2 = false :=
      fun k2 hk2 => hno k2 (List.mem_cons_of_mem _ hk2)
    rw [categorizeLoop]
    split
    next arr heq =>
      by_cases hlen : arr.length > 0
      · rw [if_pos hlen]
        rcases hscan : scanArrayItems arr false with e | bb
        · exfalso
          have hmix : isMixedKey m k = true :=
            isMixedKey_iff.mpr ⟨arr, heq, by cases e; exact hscan⟩
          rw [hno k (List.mem_cons_self _ _)] at hmix
          cases hmix
        · cases bb
          · exact categorizeLoop_ok_of_no_mixed m path rest _ hrest
          · exact categorizeLoop_ok_of_no_mixed m path rest _ hrest
      · rw [if_neg hlen]
        exact categorizeLoop_ok_of_no_mixed m path rest _ hrest
    next => exact categorizeLoop_ok_of_no_mixed m path rest _ hrest
    next => exact categorizeLoop_ok_of_no_mixed m path rest _ hrest

theorem categorizeLoop_error_of_mixed (m : GoMap) (path : List String) :
    ∀ ks : List String,
      (∃ k ∈ ks, isMixedKey m k = true) →
      ∃ k, k ∈ ks ∧ isMixedKey m k = true
        ∧ ∀ acc : Categorized,
            categorizeLoop m path ks acc
              = .error ("key " ++ apos ++ dotJoin (path ++ [k]) ++ apos
                  ++ ": arrays cannot mix tables and non-tables")
  | [], h => by
    rcases h with ⟨k, hk, -⟩
    cases hk
  | k :: rest, h => by
    by_cases hk : isMixedKey m k = true
    · refine ⟨k, List.mem_cons_self _ _, hk, fun acc => ?_⟩
      rcases isMixedKey_iff.mp hk with ⟨arr, hv, hscan⟩
      have hne : arr ≠ [] := scanArrayItems_ne_nil hscan
      rw [categorizeLoop]
      split
      next arr2 heq =>
        rw [heq] at hv
        cases hv
        rw [if_pos (by simpa [List.length_pos] using hne), hscan]
      next sub heq => rw [heq] at hv; cases hv
      next hx1 hx2 => exact absurd hv (by intro hh; exact hx1 _ hh)
    · have hex : ∃ k2 ∈ rest, isMixedKey m k2 = true := by
        rcases h with ⟨k2, hk2, hk2m⟩
        rcases List.mem_cons.mp hk2 with rfl | hk2
        · exact absurd hk2m hk
        · exact ⟨k2, hk2, hk2m⟩
      rcases categorizeLoop_error_of_mixed m path rest hex with ⟨k2, hk2, hk2m, hall⟩
      refine ⟨k2, List.mem_cons_of_mem _ hk2, hk2m, fun acc => ?_⟩
      rw [categorizeLoop]
      split
      next arr heq =>
        by_cases hlen : arr.length > 0
        · rw [if_pos hlen]
          rcases hscan : scanArrayItems arr false with e | bb
          · exfalso
            apply hk
            exact isMixedKey_iff.mpr ⟨arr, heq, by cases e; exact hscan⟩
          · cases bb
            · exact hall _
            · exact hall _
        · rw [if_neg hlen]
          exact hall _
      next => exact hall _
      next => exact hall _

/-! ### Shape of mixed-array error messages -/

theorem mixError_shaped (path : List String) (k : String) {P : List String → Prop}
    (hP : P (path ++ [k])) :
    MixShaped P ("key " ++ apos ++ dotJoin (path ++ [k]) ++ apos
      ++ ": arrays cannot mix tables and non-tables") := by
  have hsplit : (": arrays cannot mix tables and non-tables" : String).data
      = (": " : String).data ++ mixMsg.data := by decide
  constructor
  · refine ⟨(keyTag (path ++ [k])).data ++ (": " : String).data, [], ?_⟩
    show _ ++ mixMsg.data ++ []
      = (keyTag (path ++ [k]) ++ ": arrays cannot mix tables and non-tables").data
    simp [String.data_append, hsplit, mixMsg]
  · refine ⟨path ++ [k], hP, ?_⟩
    show strContains (keyTag (path ++ [k]) ++ ": arrays cannot mix tables and non-tables")
      (keyTag (path ++ [k]))
    exact strContains_of_append_left _ _

theorem MixShaped_mono {P Q : List String → Prop} {e : String}
    (h : MixShaped P e) (him : ∀ q, P q → Q q) : MixShaped Q e :=
  ⟨h.1, h.2.elim fun q hq => ⟨q, him q hq.1, hq.2⟩⟩

theorem MixShaped_wrap {P : List String → Prop} {e : String} (pre : String)
    (h : MixShaped P e) : MixShaped P (pre ++ e) :=
  ⟨strContains_append_left pre h.1,
   h.2.elim fun q hq => ⟨q, hq.1, strContains_append_left pre hq.2⟩⟩

/-! ### Error behaviour of the section writers -/

theorem fATItems_mixed_spec
    {fm : GoMap → List String → String → String → String → String × Option String}
    {fp : List String} {fps ind unit : String} :
    ∀ (items : List GoValue) (i : Nat) (out : String),
      (∀ (sub : GoMap), .vTable sub ∈ items → ∀ o : String,
        ((¬ ∃ q, MixedAt sub fp q) → (fm sub fp (ind ++ unit) unit o).2 = none)
        ∧ ((∃ q, MixedAt sub fp q) → ∃ e, (fm sub fp (ind ++ unit) unit o).2 = some e
            ∧ MixShaped (MixedAt sub fp) e)) →
      (∀ item ∈ items, ∃ sub : GoMap, item = .vTable sub) →
      ((¬ ∃ (sub : GoMap) (q : List String), .vTable sub ∈ items ∧ MixedAt sub fp q) →
        (fATItems fm fp fps ind unit items i out).2 = none)
      ∧ ((∃ (sub : GoMap) (q : List String), .vTable sub ∈ items ∧ MixedAt sub fp q) →
        ∃ e, (fATItems fm fp fps ind unit items i out).2 = some e
          ∧ MixShaped (fun q => ∃ sub : GoMap, .vTable sub ∈ items ∧ MixedAt sub fp q) e)
  | [], i, out, _, _ => by
    constructor
    · intro _
      rfl
    · rintro ⟨sub, q, hmem, -⟩
      cases hmem
  | item :: rest, i, out, hfm, hall => by
    obtain ⟨sub, rfl⟩ := hall item (List.mem_cons_self _ _)
    simp only [fATItems]
    rcases hres : fm sub fp (ind ++ unit) unit
        ((if sepAT out i then out ++ "\n" else out) ++ ind ++ "[[" ++ fps ++ "]]\n")
      with ⟨o3, e⟩
    by_cases hsub : ∃ q, MixedAt sub fp q
    · rcases (hfm sub (List.mem_cons_self _ _)
          ((if sepAT out i then out ++ "\n" else out) ++ ind ++ "[[" ++ fps ++ "]]\n")).2 hsub
        with ⟨e0, he0, hsh⟩
      rw [hres] at he0
      cases e with
      | none => exact absurd he0 (by simp)
      | some err =>
        have herr : err = e0 := by
          simpa using he0
        subst herr
        constructor
        · intro hno
          exact absurd ⟨sub, hsub.choose, List.mem_cons_self _ _, hsub.choose_spec⟩ hno
        · intro _
          refine ⟨_, rfl, ?_⟩
          refine MixShaped_wrap _ (MixShaped_mono hsh ?_)
          intro q hq
          exact ⟨sub, List.mem_cons_self _ _, hq⟩
    · have hnone := (hfm sub (List.mem_cons_self _ _)
          ((if sepAT out i then out ++ "\n" else out) ++ ind ++ "[[" ++ fps ++ "]]\n")).1 hsub
      rw [hres] at hnone
      cases e with
      | some err => exact absurd hnone (by simp)
      | none =>
        have ih := @fATItems_mixed_spec fm fp fps ind unit rest (i + 1) o3
          (fun sub2 hmem2 o => hfm sub2 (List.mem_cons_of_mem _ hmem2) o)
          (fun item2 hmem2 => hall item2 (List.mem_cons_of_mem _ hmem2))
        constructor
        · intro hno
          refine ih.1 ?_
          rintro ⟨sub2, q, hmem2, hq⟩
          exact hno ⟨sub2, q, List.mem_cons_of_mem _ hmem2, hq⟩
        · rintro ⟨sub2, q, hmem2, hq⟩
          rcases List.mem_cons.mp hmem2 with heq2 | hmem2
          · cases heq2
            exact absurd ⟨q, hq⟩ hsub
          · rcases ih.2 ⟨sub2, q, hmem2, hq⟩ with ⟨e2, he2, hsh2⟩
            refine ⟨e2, he2, MixShaped_mono hsh2 ?_⟩
            rintro q2 ⟨sub3, hmem3, hq3⟩
            exact ⟨sub3, List.mem_cons_of_mem _ hmem3, hq3⟩

theorem fATKeys_mixed_spec
    {fm : GoMap → List String → String → String → String → String × Option String}
    {atk : List (String × List GoValue)} {cp : List String} {ind unit : String} :
    ∀ (ks : List String) (out : String),
      (∀ k ∈ ks, ∀ (sub : GoMap), .vTable sub ∈ (List.lookup k atk).getD [] → ∀ o : String,
        ((¬ ∃ q, MixedAt sub (cp ++ [k]) q) →
          (fm sub (cp ++ [k]) (ind ++ unit) unit o).2 = none)
        ∧ ((∃ q, MixedAt sub (cp ++ [k]) q) →
          ∃ e, (fm sub (cp ++ [k]) (ind ++ unit) unit o).2 = some e
            ∧ MixShaped (MixedAt sub (cp ++ [k])) e)) →
      (∀ k ∈ ks, ∀ item ∈ (List.lookup k atk).getD [], ∃ sub : GoMap, item = .vTable sub) →
      ((¬ ∃ k, k ∈ ks ∧ ∃ (sub : GoMap) (q : List String),
          .vTable sub ∈ (List.lookup k atk).getD [] ∧ MixedAt sub (cp ++ [k]) q) →
        (fATKeys fm atk cp ind unit ks out).2 = none)
      ∧ ((∃ k, k ∈ ks ∧ ∃ (sub : GoMap) (q : List String),
          .vTable sub ∈ (List.lookup k atk).getD [] ∧ MixedAt sub (cp ++ [k]) q) →
        ∃ e, (fATKeys fm atk cp ind unit ks out).2 = some e
          ∧ MixShaped (fun q => ∃ k, k ∈ ks ∧ ∃ sub : GoMap,
              .vTable sub ∈ (List.lookup k atk).getD [] ∧ MixedAt sub (cp ++ [k]) q) e)
  | [], out, _, _ => by
    constructor
    · intro _
      rfl
    · rintro ⟨k, hk, -⟩
      cases hk
  | k :: rest, out, hfm, hall => by
    rw [fATKeys]
    have hitems := @fATItems_mixed_spec fm (cp ++ [k]) (dotJoin (cp ++ [k])) ind unit
      ((List.lookup k atk).getD []) 0 out
      (fun sub hmem o => hfm k (List.mem_cons_self _ _) sub hmem o)
      (fun item hmem => hall k (List.mem_cons_self _ _) item hmem)
    rcases hres : fATItems fm (cp ++ [k]) (dotJoin (cp ++ [k])) ind unit
        ((List.lookup k atk).getD []) 0 out with ⟨o1, e⟩
    by_cases hkey : ∃ (sub : GoMap) (q : List String),
        .vTable sub ∈ (List.lookup k atk).getD [] ∧ MixedAt sub (cp ++ [k]) q
    · rcases hitems.2 hkey with ⟨e0, he0, hsh⟩
      rw [hres] at he0
      cases e with
      | none => exact absurd he0 (by simp)
      | some err =>
        have herr : err = e0 := by simpa using he0
        subst herr
        constructor
        · intro hno
          rcases hkey with ⟨sub, q, hmem, hq⟩
          exact absurd ⟨k, List.mem_cons_self _ _, sub, q, hmem, hq⟩ hno
        · intro _
          refine ⟨_, rfl, MixShaped_mono hsh ?_⟩
          rintro q ⟨sub, hmem, hq⟩
          exact ⟨k, List.mem_cons_self _ _, sub, hmem, hq⟩
    · have hnone := hitems.1 (by
        rintro ⟨sub, q, hmem, hq⟩
        exact hkey ⟨sub, q, hmem, hq⟩)
      rw [hres] at hnone
      cases e with
      | some err => exact absurd hnone (by simp)
      | none =>
        have ih := @fATKeys_mixed_spec fm atk cp ind unit rest o1
          (fun k2 hk2 => hfm k2 (List.mem_cons_of_mem _ hk2))
          (fun k2 hk2 => hall k2 (List.mem_cons_of_mem _ hk2))
        constructor
        · intro hno
          refine ih.1 ?_
          rintro ⟨k2, hk2, sub, q, hmem, hq⟩
          exact hno ⟨k2, List.mem_cons_of_mem _ hk2, sub, q, hmem, hq⟩
        · rintro ⟨k2, hk2, sub, q, hmem, hq⟩
          rcases List.mem_cons.mp hk2 with rfl | hk2
          · exact absurd ⟨sub, q, hmem, hq⟩ hkey
          · rcases ih.2 ⟨k2, hk2, sub, q, hmem, hq⟩ with ⟨e2, he2, hsh2⟩
            refine ⟨e2, he2, MixShaped_mono hsh2 ?_⟩
            rintro q2 ⟨k3, hk3, sub3, hmem3, hq3⟩
            exact ⟨k3, List.mem_cons_of_mem _ hk3, sub3, hmem3, hq3⟩

theorem formatRegularTables_mixed_spec
    {fm : GoMap → List String → String → String → String → String × Option String}
    {dataMap : GoMap} {cp : List String} {ind unit : String} :
    ∀ (ks : List String) (out : String),
      (∀ k ∈ ks, ∀ (sub : GoMap), mapGet dataMap k = .vTable sub → ∀ o : String,
        ((¬ ∃ q, MixedAt sub (cp ++ [k]) q) →
          (fm sub (cp ++ [k]) (ind ++ unit) unit o).2 = none)
        ∧ ((∃ q, MixedAt sub (cp ++ [k]) q) →
          ∃ e, (fm sub (cp ++ [k]) (ind ++ unit) unit o).2 = some e
            ∧ MixShaped (MixedAt sub (cp ++ [k])) e)) →
      (∀ k ∈ ks, ∃ sub : GoMap, mapGet dataMap k = .vTable sub) →
      ((¬ ∃ k, k ∈ ks ∧ ∃ (sub : GoMap) (q : List String),
          mapGet dataMap k = .vTable sub ∧ MixedAt sub (cp ++ [k]) q) →
        (formatRegularTables fm dataMap ks cp ind unit out).2 = none)
      ∧ ((∃ k, k ∈ ks ∧ ∃ (sub : GoMap) (q : List String),
          mapGet dataMap k = .vTable sub ∧ MixedAt sub (cp ++ [k]) q) →
        ∃ e, (formatRegularTables fm dataMap ks cp ind unit out).2 = some e
          ∧ MixShaped (fun q => ∃ k, k ∈ ks ∧ ∃ sub : GoMap,
              mapGet dataMap k = .vTable sub ∧ MixedAt sub (cp ++ [k]) q) e)
  | [], out, _, _ => by
    constructor
    · intro _
      rfl
    · rintro ⟨k, hk, -⟩
      cases hk
  | k :: rest, out, hfm, htab => by
    obtain ⟨sub, hsub⟩ := htab k (List.mem_cons_self _ _)
    simp only [formatRegularTables, hsub]
    rcases hres : fm sub (cp ++ [k]) (ind ++ unit) unit
        ((if sepRT out then out ++ "\n" else out) ++ ind ++ "[" ++ dotJoin (cp ++ [k]) ++ "]\n")
      with ⟨o3, e⟩
    by_cases hkm : ∃ q, MixedAt sub (cp ++ [k]) q
    · rcases (hfm k (List.mem_cons_self _ _) sub hsub
          ((if sepRT out then out ++ "\n" else out) ++ ind ++ "["
            ++ dotJoin (cp ++ [k]) ++ "]\n")).2 hkm with ⟨e0, he0, hsh⟩
      rw [hres] at he0
      cases e with
      | none => exact absurd he0 (by simp)
      | some err =>
        have herr : err = e0 := by simpa using he0
        subst herr
        constructor
        · intro hno
          rcases hkm with ⟨q, hq⟩
          exact absurd ⟨k, List.mem_cons_self _ _, sub, q, hsub, hq⟩ hno
        · intro _
          refine ⟨_, rfl, ?_⟩
          refine MixShaped_wrap _ (MixShaped_mono hsh ?_)
          intro q hq
          exact ⟨k, List.mem_cons_self _ _, sub, hsub, hq⟩
    · have hnone := (hfm k (List.mem_cons_self _ _) sub hsub
          ((if sepRT out then out ++ "\n" else out) ++ ind ++ "["
            ++ dotJoin (cp ++ [k]) ++ "]\n")).1 hkm
      rw [hres] at hnone
      cases e with
      | some err => exact absurd hnone (by simp)
      | none =>
        have ih := @formatRegularTables_mixed_spec fm dataMap cp ind unit rest o3
          (fun k2 hk2 => hfm k2 (List.mem_cons_of_mem _ hk2))
          (fun k2 hk2 => htab k2 (List.mem_cons_of_mem _ hk2))
        constructor
        · intro hno
          refine ih.1 ?_
          rintro ⟨k2, hk2, sub2, q, hsub2, hq⟩
          exact hno ⟨k2, List.mem_cons_of_mem _ hk2, sub2, q, hsub2, hq⟩
        · rintro ⟨k2, hk2, sub2, q, hsub2, hq⟩
          rcases List.mem_cons.mp hk2 with rfl | hk2
          · rw [hsub] at hsub2
            cases hsub2
            exact absurd ⟨q, hq⟩ hkm
          · rcases ih.2 ⟨k2, hk2, sub2, q, hsub2, hq⟩ with ⟨e2, he2, hsh2⟩
            refine ⟨e2, he2, MixShaped_mono hsh2 ?_⟩
            rintro q2 ⟨k3, hk3, sub3, hsub3, hq3⟩
            exact ⟨k3, List.mem_cons_of_mem _ hk3, sub3, hsub3, hq3⟩

/-! ### Bridging pass-1 output and map contents -/

theorem keysOf_atk_eq {m : GoMap} {path : List String} {c : Categorized}
    (hc : categorize m path = .ok c) :
    keysOf c.arrayTableKeys = (sortStrings (keysOf m)).filter (isATKey m) := by
  obtain ⟨-, -, -, hat⟩ := categorize_ok_eq hc
  simp [hat, keysOf, List.map_map, Function.comp_def]

theorem lookup_atk {m : GoMap} {path : List String} {c : Categorized}
    (hc : categorize m path = .ok c) {k : String} (hk : k ∈ keysOf c.arrayTableKeys) :
    List.lookup k c.arrayTableKeys = some (arrOf m k) := by
  obtain ⟨-, -, -, hat⟩ := categorize_ok_eq hc
  have hk2 : k ∈ (sortStrings (keysOf m)).filter (isATKey m) := by
    rw [← keysOf_atk_eq hc]
    exact hk
  rw [hat]
  exact lookup_map_self _ _ _ hk2

theorem isATKey_of_mem_atk {m : GoMap} {path : List String} {c : Categorized}
    (hc : categorize m path = .ok c) {k : String} (hk : k ∈ keysOf c.arrayTableKeys) :
    isATKey m k = true := by
  have hx := keysOf_atk_eq hc
  rw [hx] at hk
  exact (List.mem_filter.mp hk).2

theorem mem_tableKeys_of_mapGet {m : GoMap} {path : List String} {c : Categorized}
    (hc : categorize m path = .ok c) {k : String} {sub : GoMap}
    (hv : mapGet m k = .vTable sub) : k ∈ c.tableKeys := by
  obtain ⟨-, -, htK, -⟩ := categorize_ok_eq hc
  rw [htK]
  refine List.mem_filter.mpr ⟨?_, isTableKey_of hv⟩
  exact (sortStrings_perm _).mem_iff.mpr (mem_keysOf_of_mapGet hv (by intro hh; cases hh))

theorem tableKeys_mapGet {m : GoMap} {path : List String} {c : Categorized}
    (hc : categorize m path = .ok c) {k : String} (hk : k ∈ c.tableKeys) :
    ∃ sub : GoMap, mapGet m k = .vTable sub := by
  obtain ⟨-, -, htK, -⟩ := categorize_ok_eq hc
  rw [htK] at hk
  exact isTableKey_iff.mp (List.mem_filter.mp hk).2

theorem mem_atk_of_mapGet {m : GoMap} {path : List String} {c : Categorized}
    (hc : categorize m path = .ok c) {k : String} {arr : List GoValue}
    (hv : mapGet m k = .vArr arr) (hne : arr ≠ [])
    (hscan : scanArrayItems arr false = .ok true) :
    k ∈ keysOf c.arrayTableKeys ∧ arrOf m k = arr := by
  constructor
  · rw [keysOf_atk_eq hc]
    refine List.mem_filter.mpr ⟨?_, isATKey_of m k hv hne hscan⟩
    exact (sortStrings_perm _).mem_iff.mpr (mem_keysOf_of_mapGet hv (by intro hh; cases hh))
  · simp [arrOf, hv]

/-! ### The main error specification of the renderer -/

theorem formatMapF_mixed_spec : ∀ (fuel : Nat) (m : GoMap) (p : List String)
    (ind unit out : String), needMap m ≤ fuel →
    ((¬ ∃ q, MixedAt m p q) → (formatMapF fuel m p ind unit out).2 = none)
    ∧ ((∃ q, MixedAt m p q) → ∃ e, (formatMapF fuel m p ind unit out).2 = some e
        ∧ MixShaped (MixedAt m p) e)
  | 0, m, p, ind, unit, out, hneed => absurd (le_trans (needMap_pos m) hneed) (by omega)
  | fuel + 1, m, p, ind, unit, out, hneed => by
    by_cases hmix : ∃ k ∈ sortStrings (keysOf m), isMixedKey m k = true
    · rcases categorizeLoop_error_of_mixed m p _ hmix with ⟨k, hkmem, hkmix, hall⟩
      have hcat : categorize m p
          = .error ("key " ++ apos ++ dotJoin (p ++ [k]) ++ apos
              ++ ": arrays cannot mix tables and non-tables") := hall Categorized.init
      simp only [formatMapF, hcat]
      rcases isMixedKey_iff.mp hkmix with ⟨arr, hv, hsc⟩
      have hM : MixedAt m p (p ++ [k]) := MixedAt.here hv hsc
      constructor
      · intro hno
        exact absurd ⟨_, hM⟩ hno
      · intro _
        exact ⟨_, rfl, mixError_shaped p k hM⟩
    · have hno : ∀ k ∈ sortStrings (keysOf m), isMixedKey m k = false := by
        intro k hk
        rcases hb : isMixedKey m k with - | -
        · rfl
        · exact absurd ⟨k, hk, hb⟩ hmix
      rcases categorizeLoop_ok_of_no_mixed m p _ Categorized.init hno with ⟨c, hcat⟩
      have hc : categorize m p = .ok c := hcat
      simp only [formatMapF, hc, formatArrayTables]
      have hATfact : ∀ k ∈ sortStrings (keysOf c.arrayTableKeys),
          List.lookup k c.arrayTableKeys = some (arrOf m k) ∧ isATKey m k = true := by
        intro k hk
        have hk2 : k ∈ keysOf c.arrayTableKeys := (sortStrings_perm _).mem_iff.mp hk
        exact ⟨lookup_atk hc hk2, isATKey_of_mem_atk hc hk2⟩
      have hfmAT : ∀ k ∈ sortStrings (keysOf c.arrayTableKeys), ∀ (sub : GoMap),
          GoValue.vTable sub ∈ (List.lookup k c.arrayTableKeys).getD [] → ∀ o : String,
          ((¬ ∃ q, MixedAt sub (p ++ [k]) q) →
            (formatMapF fuel sub (p ++ [k]) (ind ++ unit) unit o).2 = none)
          ∧ ((∃ q, MixedAt sub (p ++ [k]) q) →
            ∃ e, (formatMapF fuel sub (p ++ [k]) (ind ++ unit) unit o).2 = some e
              ∧ MixShaped (MixedAt sub (p ++ [k])) e) := by
        intro k hk sub hmem o
        obtain ⟨hlook, hat⟩ := hATfact k hk
        rw [hlook] at hmem
        obtain ⟨hvm, -, -⟩ := isATKey_spec hat
        have hb := needMap_arrTable_le hvm (by simpa using hmem)
        exact formatMapF_mixed_spec fuel sub (p ++ [k]) (ind ++ unit) unit o (by omega)
      have hallAT : ∀ k ∈ sortStrings (keysOf c.arrayTableKeys),
          ∀ item ∈ (List.lookup k c.arrayTableKeys).getD [],
          ∃ sub : GoMap, item = .vTable sub := by
        intro k hk item hmem
        obtain ⟨hlook, hat⟩ := hATfact k hk
        rw [hlook] at hmem
        obtain ⟨-, -, hscan⟩ := isATKey_spec hat
        exact scan_ok_true_all_tables hscan item (by simpa using hmem)
      have hATspec := @fATKeys_mixed_spec (formatMapF fuel) c.arrayTableKeys p ind unit
        (sortStrings (keysOf c.arrayTableKeys))
        (formatSimpleKeys m c.simpleKeys c.maxKeyLen ind out) hfmAT hallAT
      have hQA : ∀ q, (∃ k, k ∈ sortStrings (keysOf c.arrayTableKeys) ∧ ∃ sub : GoMap,
          GoValue.vTable sub ∈ (List.lookup k c.arrayTableKeys).getD []
          ∧ MixedAt sub (p ++ [k]) q) → MixedAt m p q := by
        rintro q ⟨k, hk, sub, hmem, hq⟩
        obtain ⟨hlook, hat⟩ := hATfact k hk
        rw [hlook] at hmem
        obtain ⟨hvm, hne, hscan⟩ := isATKey_spec hat
        exact MixedAt.inArrayTable hvm hne hscan (by simpa using hmem) hq
      have hQB : ∀ q, (∃ k, k ∈ c.tableKeys ∧ ∃ sub : GoMap,
          mapGet m k = .vTable sub ∧ MixedAt sub (p ++ [k]) q) → MixedAt m p q := by
        rintro q ⟨k, hk, sub, hsub, hq⟩
        exact MixedAt.inTable hsub hq
      have hdec : ∀ q, MixedAt m p q →
          (∃ k, k ∈ sortStrings (keysOf c.arrayTableKeys) ∧ ∃ (sub : GoMap),
            GoValue.vTable sub ∈ (List.lookup k c.arrayTableKeys).getD []
            ∧ ∃ q2, q2 = q ∧ MixedAt sub (p ++ [k]) q)
          ∨ (∃ k, k ∈ c.tableKeys ∧ ∃ sub : GoMap,
            mapGet m k = .vTable sub ∧ MixedAt sub (p ++ [k]) q) := by
        intro q hq
        cases hq with
        | here hv hmixp =>
          exfalso
          rename_i k2 arr2
          have hm2 : isMixedKey m k2 = true := isMixedKey_iff.mpr ⟨arr2, hv, hmixp⟩
          have hkm : k2 ∈ sortStrings (keysOf m) :=
            (sortStrings_perm _).mem_iff.mpr (mem_keysOf_of_mapGet hv (by intro hh; cases hh))
          exact absurd ⟨k2, hkm, hm2⟩ hmix
        | inTable hv hsb =>
          rename_i k2 sub2
          exact Or.inr ⟨k2, mem_tableKeys_of_mapGet hc hv, sub2, hv, hsb⟩
        | inArrayTable hv hne hscan hmem hsb =>
          rename_i k2 arr2 sub2
          obtain ⟨hkatk, harr⟩ := mem_atk_of_mapGet hc hv hne hscan
          refine Or.inl ⟨k2, (sortStrings_perm _).mem_iff.mpr hkatk, sub2, ?_, q, rfl, hsb⟩
          rw [lookup_atk hc hkatk]
          simpa [harr] using hmem
      rcases hATres : fATKeys (formatMapF fuel) c.arrayTableKeys p ind unit
          (sortStrings (keysOf c.arrayTableKeys))
          (formatSimpleKeys m c.simpleKeys c.maxKeyLen ind out) with ⟨o2, eAT⟩
      rw [hATres] at hATspec
      by_cases hA : ∃ k, k ∈ sortStrings (keysOf c.arrayTableKeys) ∧ ∃ (sub : GoMap)
          (q : List String), GoValue.vTable sub ∈ (List.lookup k c.arrayTableKeys).getD []
          ∧ MixedAt sub (p ++ [k]) q
      · rcases hATspec.2 hA with ⟨e0, he0, hsh⟩
        cases eAT with
        | none => exact absurd he0 (by simp)
        | some err =>
          have herr : err = e0 := by simpa using he0
          subst herr
          have hshM : MixShaped (MixedAt m p) err := by
            refine MixShaped_mono hsh ?_
            rintro q2 ⟨k3, hk3, sub3, hmem3, hq3⟩
            exact hQA q2 ⟨k3, hk3, sub3, hmem3, hq3⟩
          constructor
          · intro hno2
            rcases hA with ⟨k3, hk3, sub3, q3, hmem3, hq3⟩
            exact absurd ⟨q3, hQA q3 ⟨k3, hk3, sub3, hmem3, hq3⟩⟩ hno2
          · intro _
            exact ⟨err, rfl, hshM⟩
      · have hATnone := hATspec.1 (by
          rintro ⟨k3, hk3, sub3, q3, hmem3, hq3⟩
          exact hA ⟨k3, hk3, sub3, q3, hmem3, hq3⟩)
        cases eAT with
        | some err => exact absurd hATnone (by simp)
        | none =>
          have hfmRT : ∀ k ∈ c.tableKeys, ∀ (sub : GoMap), mapGet m k = .vTable sub →
              ∀ o : String,
              ((¬ ∃ q, MixedAt sub (p ++ [k]) q) →
                (formatMapF fuel sub (p ++ [k]) (ind ++ unit) unit o).2 = none)
              ∧ ((∃ q, MixedAt sub (p ++ [k]) q) →
                ∃ e, (formatMapF fuel sub (p ++ [k]) (ind ++ unit) unit o).2 = some e
                  ∧ MixShaped (MixedAt sub (p ++ [k])) e) := by
            intro k hk sub hsub o
            have hb := needMap_table_le hsub
            exact formatMapF_mixed_spec fuel sub (p ++ [k]) (ind ++ unit) unit o (by omega)
          have htabRT : ∀ k ∈ c.tableKeys, ∃ sub : GoMap, mapGet m k = .vTable sub :=
            fun k hk => tableKeys_mapGet hc hk
          have hRTspec := @formatRegularTables_mixed_spec (formatMapF fuel) m p ind unit
            c.tableKeys o2 hfmRT htabRT
          by_cases hB : ∃ k, k ∈ c.tableKeys ∧ ∃ (sub : GoMap) (q : List String),
              mapGet m k = .vTable sub ∧ MixedAt sub (p ++ [k]) q
          · rcases hRTspec.2 hB with ⟨e0, he0, hsh⟩
            constructor
            · intro hno2
              rcases hB with ⟨k3, hk3, sub3, q3, hsub3, hq3⟩
              exact absurd ⟨q3, hQB q3 ⟨k3, hk3, sub3, hsub3, hq3⟩⟩ hno2
            · intro _
              refine ⟨e0, he0, MixShaped_mono hsh ?_⟩
              rintro q2 ⟨k3, hk3, sub3, hsub3, hq3⟩
              exact hQB q2 ⟨k3, hk3, sub3, hsub3, hq3⟩
          · constructor
            · intro _
              exact hRTspec.1 (by
                rintro ⟨k3, hk3, sub3, q3, hsub3, hq3⟩
                exact hB ⟨k3, hk3, sub3, q3, hsub3, hq3⟩)
            · rintro ⟨q, hq⟩
              rcases hdec q hq with ⟨k3, hk3, sub3, hmem3, q2, rfl, hq3⟩ | hB2
              · exact absurd ⟨k3, hk3, sub3, q2, hmem3, hq3⟩ hA
              · rcases hB2 with ⟨k3, hk3, sub3, hsub3, hq3⟩
                exact absurd ⟨k3, hk3, sub3, q, hsub3, hq3⟩ hB

/-- C1 (amended): for every document holding, at a renderer-reachable key
path, an array in which a table element appears before the first non-table
element (exactly the arrays whose pass-1 scan raises the mixed-array error),
rendering fails with an error whose message contains
"arrays cannot mix tables and non-tables" and contains
"key " followed by the quoted full dotted path of an offending key.
(As the counterexample shows, the failure is not order-independent: when the
first non-table element precedes every table element the array is instead
rendered as a simple value.) -/
theorem c1_mixed_array_error (data : GoMap) (indentUnit : String)
    (h : ∃ q, MixedAt data [] q) :
    ∃ e, (Format data indentUnit).2 = some e
      ∧ strContains e mixMsg
      ∧ ∃ q, MixedAt data [] q ∧ strContains e (keyTag q) := by
  have hspec := formatMapF_mixed_spec (needMap data + 1) data [] "" indentUnit ""
    (by omega)
  rcases hspec.2 h with ⟨e, he, hsh⟩
  refine ⟨e, ?_, hsh.1, hsh.2⟩
  unfold Format
  rcases hf : formatMapF (needMap data + 1) data [] "" indentUnit "" with ⟨buf, er⟩
  rw [hf] at he
  cases er with
  | none => exact absurd he (by simp)
  | some err =>
    have : err = e := by simpa using he
    subst this
    rfl

/-- Witness for the amended C1 at a concrete mixed document. -/
theorem c1_mixed_array_error_witness :
    (∃ q, MixedAt exMixedDoc [] q)
    ∧ ∃ e, (Format exMixedDoc "").2 = some e
        ∧ strContains e mixMsg
        ∧ ∃ q, MixedAt exMixedDoc [] q ∧ strContains e (keyTag q) :=
  ⟨⟨["bad_arr"], MixedAt.here rfl rfl⟩,
   c1_mixed_array_error exMixedDoc "" ⟨["bad_arr"], MixedAt.here rfl rfl⟩⟩

/-! ### Representation independence (C10): equivalence lemmas -/

theorem lookup_isSome_iff {α : Type} :
    ∀ {m : List (String × α)} {k : String}, (List.lookup k m).isSome = true ↔ k ∈ keysOf m
  | [], k => by simp [List.lookup, keysOf]
  | (k', v') :: rest, k => by
    by_cases hk : k = k'
    · subst hk
      simp [List.lookup, keysOf]
    · simp only [List.lookup, beq_eq_false_iff_ne.mpr hk, keysOf, List.map_cons]
      rw [lookup_isSome_iff]
      simp [keysOf, hk]

theorem EquivV_cases {v1 v2 : GoValue} (h : EquivV v1 v2) :
    (∃ l1 l2, v1 = .vArr l1 ∧ v2 = .vArr l2 ∧ l1.length = l2.length
      ∧ ∀ a b, (a, b) ∈ l1.zip l2 → EquivV a b)
    ∨ (∃ t1 t2, v1 = .vTable t1 ∧ v2 = .vTable t2 ∧ EquivM t1 t2)
    ∨ (v1 = v2 ∧ (∀ l, v1 ≠ .vArr l) ∧ (∀ t, v1 ≠ .vTable t)) := by
  cases h with
  | str s => exact Or.inr (Or.inr ⟨rfl, ⟨(fun l hh => by cases hh), (fun t hh => by cases hh)⟩⟩)
  | int i => exact Or.inr (Or.inr ⟨rfl, ⟨(fun l hh => by cases hh), (fun t hh => by cases hh)⟩⟩)
  | float g => exact Or.inr (Or.inr ⟨rfl, ⟨(fun l hh => by cases hh), (fun t hh => by cases hh)⟩⟩)
  | bool b => exact Or.inr (Or.inr ⟨rfl, ⟨(fun l hh => by cases hh), (fun t hh => by cases hh)⟩⟩)
  | time t => exact Or.inr (Or.inr ⟨rfl, ⟨(fun l hh => by cases hh), (fun t hh => by cases hh)⟩⟩)
  | nil => exact Or.inr (Or.inr ⟨rfl, ⟨(fun l hh => by cases hh), (fun t hh => by cases hh)⟩⟩)
  | arr hlen hzip => exact Or.inl ⟨_, _, rfl, rfl, hlen, hzip⟩
  | table hperm hlook => exact Or.inr (Or.inl ⟨_, _, rfl, rfl, EquivV.table hperm hlook⟩)

theorem equivM_mapGet {m1 m2 : GoMap} (h : EquivM m1 m2) (k : String) :
    EquivV (mapGet m1 k) (mapGet m2 k) := by
  cases h with
  | table hperm hlook =>
  rcases h1 : List.lookup k m1 with - | v1
  · rcases h2 : List.lookup k m2 with - | v2
    · rw [mapGet, mapGet, h1, h2]
      exact EquivV.nil
    · exfalso
      have hm2 : k ∈ keysOf m2 := lookup_isSome_iff.mp (by rw [h2]; rfl)
      have hm1 : k ∈ keysOf m1 := hperm.mem_iff.mpr hm2
      have := lookup_isSome_iff.mpr hm1
      rw [h1] at this
      cases this
  · rcases h2 : List.lookup k m2 with - | v2
    · exfalso
      have hm1 : k ∈ keysOf m1 := lookup_isSome_iff.mp (by rw [h1]; rfl)
      have hm2 : k ∈ keysOf m2 := hperm.mem_iff.mp hm1
      have := lookup_isSome_iff.mpr hm2
      rw [h2] at this
      cases this
    · rw [mapGet, mapGet, h1, h2]
      exact hlook k v1 v2 h1 h2

theorem sortStrings_eq_of_perm {l1 l2 : List String} (h : l1.Perm l2) :
    sortStrings l1 = sortStrings l2 :=
  List.eq_of_perm_of_sorted
    (((sortStrings_perm l1).trans h).trans (sortStrings_perm l2).symm)
    (List.sorted_insertionSort _ _) (List.sorted_insertionSort _ _)

theorem goTypeName_equiv {v1 v2 : GoValue} (h : EquivV v1 v2) :
    goTypeName v1 = goTypeName v2 := by
  cases h <;> rfl

theorem formatValueList_congr :
    ∀ {l1 l2 : List GoValue}, l1.length = l2.length →
      (∀ a b, (a, b) ∈ l1.zip l2 → formatTomlValue a = formatTomlValue b) →
      formatValueList l1 = formatValueList l2
  | [], [], _, _ => rfl
  | [], _ :: _, hlen, _ => by cases hlen
  | _ :: _, [], hlen, _ => by cases hlen
  | a :: l1, b :: l2, hlen, hzip => by
    rw [formatValueList, formatValueList,
      hzip a b (by simp [List.zip_cons_cons]),
      formatValueList_congr (by simpa using hlen)
        (fun a2 b2 hm => hzip a2 b2 (by simp [List.zip_cons_cons, hm]))]

theorem formatTomlValue_equiv : ∀ {v1 v2 : GoValue}, EquivV v1 v2 →
    formatTomlValue v1 = formatTomlValue v2 := by
  intro v1 v2 h
  induction h with
  | arr hlen hzip ih =>
    rw [formatTomlValue, formatTomlValue]
    rw [formatValueList_congr hlen ih]
  | table hperm hlook => rfl
  | str s => rfl
  | int i => rfl
  | float g => rfl
  | bool b => rfl
  | time t => rfl
  | nil => rfl

theorem scanArrayItems_equiv :
    ∀ {l1 l2 : List GoValue}, l1.length = l2.length →
      (∀ a b, (a, b) ∈ l1.zip l2 → EquivV a b) →
      ∀ b : Bool, scanArrayItems l1 b = scanArrayItems l2 b
  | [], [], _, _, b => rfl
  | [], _ :: _, hlen, _, b => by cases hlen
  | _ :: _, [], hlen, _, b => by cases hlen
  | a :: l1, c :: l2, hlen, hzip, b => by
    have hh := hzip a c (by simp [List.zip_cons_cons])
    rcases EquivV_cases hh with ⟨x1, x2, rfl, rfl, -, -⟩ | ⟨t1, t2, rfl, rfl, -⟩
      | ⟨rfl, hna, hnt⟩
    · rw [scanArrayItems_cons_nontable (by intro s hh2; cases hh2) _ b,
        scanArrayItems_cons_nontable (by intro s hh2; cases hh2) _ b]
    · rw [scanArrayItems_cons_table, scanArrayItems_cons_table]
      exact scanArrayItems_equiv (by simpa using hlen)
        (fun a2 b2 hm => hzip a2 b2 (by simp [List.zip_cons_cons, hm])) true
    · rw [scanArrayItems_cons_nontable hnt _ b, scanArrayItems_cons_nontable hnt _ b]

theorem categorizeLoop_equiv {m1 m2 : GoMap} (hE : EquivM m1 m2) (path : List String) :
    ∀ (ks : List String) (acc1 acc2 : Categorized),
      acc1.simpleKeys = acc2.simpleKeys → acc1.maxKeyLen = acc2.maxKeyLen →
      acc1.tableKeys = acc2.tableKeys →
      List.Forall₂ (fun p1 p2 => p1.1 = p2.1 ∧ List.Forall₂ EquivV p1.2 p2.2)
        acc1.arrayTableKeys acc2.arrayTableKeys →
      (∃ e, categorizeLoop m1 path ks acc1 = .error e
         ∧ categorizeLoop m2 path ks acc2 = .error e)
      ∨ (∃ c1 c2, categorizeLoop m1 path ks acc1 = .ok c1
          ∧ categorizeLoop m2 path ks acc2 = .ok c2
          ∧ c1.simpleKeys = c2.simpleKeys ∧ c1.maxKeyLen = c2.maxKeyLen
          ∧ c1.tableKeys = c2.tableKeys
          ∧ List.Forall₂ (fun p1 p2 => p1.1 = p2.1 ∧ List.Forall₂ EquivV p1.2 p2.2)
              c1.arrayTableKeys c2.arrayTableKeys)
  | [], acc1, acc2, h1, h2, h3, h4 => Or.inr ⟨acc1, acc2, rfl, rfl, h1, h2, h3, h4⟩
  | k :: rest, acc1, acc2, h1, h2, h3, h4 => by
    rw [categorizeLoop, categorizeLoop]
    rcases EquivV_cases (equivM_mapGet hE k) with
        ⟨l1, l2, hv1, hv2, hlen, hzip⟩ | ⟨t1, t2, hv1, hv2, hEt⟩ | ⟨heq, hna, hnt⟩
    · simp only [hv1, hv2]
      by_cases hl : l2.length > 0
      · rw [if_pos (by rw [hlen]; exact hl), if_pos hl,
          scanArrayItems_equiv hlen hzip false]
        rcases hscan : scanArrayItems l2 false with e | bb
        · exact Or.inl ⟨_, rfl, rfl⟩
        · cases bb
          · exact categorizeLoop_equiv hE path rest _ _ (by simp [h1]) (by simp [h2])
              (by simpa using h3) (by simpa using h4)
          · refine categorizeLoop_equiv hE path rest _ _ (by simpa using h1)
              (by simpa using h2) (by simpa using h3) ?_
            show List.Forall₂ _ (acc1.arrayTableKeys ++ [(k, l1)])
              (acc2.arrayTableKeys ++ [(k, l2)])
            refine List.rel_append h4 ?_
            refine List.forall₂_cons.mpr ⟨⟨rfl, ?_⟩, List.Forall₂.nil⟩
            exact (List.forall₂_iff_zip.mpr ⟨hlen, fun hm => hzip _ _ hm⟩)
      · rw [if_neg (by rw [hlen]; exact hl), if_neg hl]
        exact categorizeLoop_equiv hE path rest _ _ (by simp [h1]) (by simp [h2])
          (by simpa using h3) (by simpa using h4)
    · simp only [hv1, hv2]
      exact categorizeLoop_equiv hE path rest _ _ (by simpa using h1) (by simpa using h2)
        (by simp [h3]) (by simpa using h4)
    · rw [← heq]
      rcases hv : mapGet m1 k with s | i | g | b | t | - | arr | sub
      case vArr => exact absurd hv (hna arr)
      case vTable => exact absurd hv (hnt sub)
      all_goals
        exact categorizeLoop_equiv hE path rest _ _ (by simp [h1]) (by simp [h2])
          (by simpa using h3) (by simpa using h4)

theorem formatSimpleKeys_equiv {m1 m2 : GoMap} (hE : EquivM m1 m2) (len : Nat) (ind : String) :
    ∀ (ks : List String) (out : String),
      formatSimpleKeys m1 ks len ind out = formatSimpleKeys m2 ks len ind out
  | [], _ => rfl
  | k :: rest, out => by
    have hval : formatTomlValue (mapGet m1 k) = formatTomlValue (mapGet m2 k) :=
      formatTomlValue_equiv (equivM_mapGet hE k)
    rw [formatSimpleKeys, formatSimpleKeys, simpleLine, simpleLine, hval]
    exact formatSimpleKeys_equiv hE len ind rest _

theorem fATItems_equiv
    {fm1 fm2 : GoMap → List String → String → String → String → String × Option String}
    (hfm : ∀ sub1 sub2, EquivM sub1 sub2 → ∀ (p2 : List String) (i2 u2 o : String),
      fm1 sub1 p2 i2 u2 o = fm2 sub2 p2 i2 u2 o)
    (fp : List String) (fps ind unit : String) :
    ∀ {items1 items2 : List GoValue}, List.Forall₂ EquivV items1 items2 →
      ∀ (i : Nat) (out : String),
        fATItems fm1 fp fps ind unit items1 i out
          = fATItems fm2 fp fps ind unit items2 i out := by
  intro items1 items2 hF
  induction hF with
  | nil => intro i out; rfl
  | cons hhead htail ih =>
    intro i out
    rcases EquivV_cases hhead with
        ⟨l1, l2, hv1, hv2, -, -⟩ | ⟨t1, t2, hv1, hv2, hEt⟩ | ⟨heq, hna, hnt⟩
    · subst hv1
      subst hv2
      rfl
    · subst hv1
      subst hv2
      simp only [fATItems]
      rw [hfm t1 t2 hEt fp (ind ++ unit) unit
        ((if sepAT out i then out ++ "\n" else out) ++ ind ++ "[[" ++ fps ++ "]]\n")]
      rcases fm2 t2 fp (ind ++ unit) unit
          ((if sepAT out i then out ++ "\n" else out) ++ ind ++ "[[" ++ fps ++ "]]\n")
        with ⟨o3, e⟩
      cases e
      · exact ih (i + 1) o3
      · rfl
    · rename_i a1 a2 l1 l2
      rw [← heq] at *
      rcases a1 with s | iv | g | b | t | - | arr | sub
      case vArr => exact absurd rfl (hna arr)
      case vTable => exact absurd rfl (hnt sub)
      all_goals rfl

theorem forall₂_keysOf_eq :
    ∀ {a1 a2 : List (String × List GoValue)},
      List.Forall₂ (fun p1 p2 => p1.1 = p2.1 ∧ List.Forall₂ EquivV p1.2 p2.2) a1 a2 →
      keysOf a1 = keysOf a2 := by
  intro a1 a2 h
  induction h with
  | nil => rfl
  | cons hhead htail ih =>
    show _ :: keysOf _ = _ :: keysOf _
    rw [hhead.1, ih]

theorem lookup_rel :
    ∀ {a1 a2 : List (String × List GoValue)},
      List.Forall₂ (fun p1 p2 => p1.1 = p2.1 ∧ List.Forall₂ EquivV p1.2 p2.2) a1 a2 →
      ∀ k : String,
        (List.lookup k a1 = none ∧ List.lookup k a2 = none)
        ∨ ∃ l1 l2, List.lookup k a1 = some l1 ∧ List.lookup k a2 = some l2
            ∧ List.Forall₂ EquivV l1 l2 := by
  intro a1 a2 h
  induction h with
  | nil => exact fun k => Or.inl ⟨rfl, rfl⟩
  | cons hhead htail ih =>
    intro k
    rename_i p1 p2 r1 r2
    rcases p1 with ⟨k1, l1⟩
    rcases p2 with ⟨k2, l2⟩
    obtain ⟨hk12, hl12⟩ := hhead
    cases hk12
    by_cases hk : k = k1
    · subst hk
      right
      exact ⟨l1, l2, by simp [List.lookup], by simp [List.lookup], hl12⟩
    · simpa [List.lookup, beq_eq_false_iff_ne.mpr hk] using ih k

theorem fATKeys_equiv
    {fm1 fm2 : GoMap → List String → String → String → String → String × Option String}
    (hfm : ∀ sub1 sub2, EquivM sub1 sub2 → ∀ (p2 : List String) (i2 u2 o : String),
      fm1 sub1 p2 i2 u2 o = fm2 sub2 p2 i2 u2 o)
    {atk1 atk2 : List (String × List GoValue)}
    (hA : List.Forall₂ (fun p1 p2 => p1.1 = p2.1 ∧ List.Forall₂ EquivV p1.2 p2.2) atk1 atk2)
    (cp : List String) (ind unit : String) :
    ∀ (ks : List String) (out : String),
      fATKeys fm1 atk1 cp ind unit ks out = fATKeys fm2 atk2 cp ind unit ks out
  | [], _ => rfl
  | k :: rest, out => by
    rw [fATKeys, fATKeys]
    have hitems :
        fATItems fm1 (cp ++ [k]) (dotJoin (cp ++ [k])) ind unit
            ((List.lookup k atk1).getD []) 0 out
          = fATItems fm2 (cp ++ [k]) (dotJoin (cp ++ [k])) ind unit
            ((List.lookup k atk2).getD []) 0 out := by
      rcases lookup_rel hA k with ⟨h1, h2⟩ | ⟨l1, l2, h1, h2, hl⟩
      · rw [h1, h2]
        rfl
      · rw [h1, h2]
        exact fATItems_equiv hfm (cp ++ [k]) (dotJoin (cp ++ [k])) ind unit hl 0 out
    rw [hitems]
    rcases fATItems fm2 (cp ++ [k]) (dotJoin (cp ++ [k])) ind unit
        ((List.lookup k atk2).getD []) 0 out with ⟨o1, e⟩
    cases e
    · exact fATKeys_equiv hfm hA cp ind unit rest o1
    · rfl

theorem formatRegularTables_equiv
    {fm1 fm2 : GoMap → List String → String → String → String → String × Option String}
    (hfm : ∀ sub1 sub2, EquivM sub1 sub2 → ∀ (p2 : List String) (i2 u2 o : String),
      fm1 sub1 p2 i2 u2 o = fm2 sub2 p2 i2 u2 o)
    {m1 m2 : GoMap} (hE : EquivM m1 m2) :
    ∀ (ks cp : List String) (ind unit out : String),
      formatRegularTables fm1 m1 ks cp ind unit out
        = formatRegularTables fm2 m2 ks cp ind unit out
  | [], _, _, _, _ => rfl
  | k :: rest, cp, ind, unit, out => by
    rcases EquivV_cases (equivM_mapGet hE k) with
        ⟨l1, l2, hv1, hv2, -, -⟩ | ⟨t1, t2, hv1, hv2, hEt⟩ | ⟨heq, hna, hnt⟩
    · simp only [formatRegularTables, hv1, hv2]
      rfl
    · simp only [formatRegularTables, hv1, hv2]
      rw [hfm t1 t2 hEt (cp ++ [k]) (ind ++ unit) unit
        ((if sepRT out then out ++ "\n" else out) ++ ind ++ "[" ++ dotJoin (cp ++ [k]) ++ "]\n")]
      rcases fm2 t2 (cp ++ [k]) (ind ++ unit) unit
          ((if sepRT out then out ++ "\n" else out) ++ ind ++ "[" ++ dotJoin (cp ++ [k]) ++ "]\n")
        with ⟨o3, e⟩
      cases e
      · exact formatRegularTables_equiv hfm hE rest cp ind unit o3
      · rfl
    · rw [formatRegularTables, formatRegularTables, ← heq]
      rcases hv : mapGet m1 k with s | iv | g | b | t | - | arr | sub
      case vArr => exact absurd hv (hna arr)
      case vTable => exact absurd hv (hnt sub)
      all_goals rfl

theorem formatMapF_equiv : ∀ (fuel : Nat) {m1 m2 : GoMap}, EquivM m1 m2 →
    ∀ (p : List String) (ind unit out : String),
      formatMapF fuel m1 p ind unit out = formatMapF fuel m2 p ind unit out
  | 0, m1, m2, _, p, ind, unit, out => rfl
  | fuel + 1, m1, m2, hE, p, ind, unit, out => by
    have hperm : (keysOf m1).Perm (keysOf m2) := by
      cases hE with
      | table hperm hlook => exact hperm
    have hkeys : sortStrings (keysOf m1) = sortStrings (keysOf m2) :=
      sortStrings_eq_of_perm hperm
    have hcat := categorizeLoop_equiv hE p (sortStrings (keysOf m1))
      Categorized.init Categorized.init rfl rfl rfl List.Forall₂.nil
    rcases hcat with ⟨e, he1, he2⟩ | ⟨c1, c2, hc1, hc2, hs, hmax, ht, hat⟩
    · have hcat1 : categorize m1 p = .error e := he1
      have hcat2 : categorize m2 p = .error e := by
        rw [categorize, ← hkeys]
        exact he2
      simp only [formatMapF, hcat1, hcat2]
    · have hcat1 : categorize m1 p = .ok c1 := hc1
      have hcat2 : categorize m2 p = .ok c2 := by
        rw [categorize, ← hkeys]
        exact hc2
      simp only [formatMapF, hcat1, hcat2, formatArrayTables]
      have hsimple : formatSimpleKeys m1 c1.simpleKeys c1.maxKeyLen ind out
          = formatSimpleKeys m2 c2.simpleKeys c2.maxKeyLen ind out := by
        rw [← hs, ← hmax]
        exact formatSimpleKeys_equiv hE c1.maxKeyLen ind c1.simpleKeys out
      rw [← hsimple]
      have hATeq : fATKeys (formatMapF fuel) c1.arrayTableKeys p ind unit
            (sortStrings (keysOf c1.arrayTableKeys))
            (formatSimpleKeys m1 c1.simpleKeys c1.maxKeyLen ind out)
          = fATKeys (formatMapF fuel) c2.arrayTableKeys p ind unit
            (sortStrings (keysOf c2.arrayTableKeys))
            (formatSimpleKeys m1 c1.simpleKeys c1.maxKeyLen ind out) := by
      -- hmm fm1 = fm2 = formatMapF fuel but atk differ
        rw [← forall₂_keysOf_eq hat]
        exact fATKeys_equiv (fun sub1 sub2 hsub p2 i2 u2 o =>
          formatMapF_equiv fuel hsub p2 i2 u2 o) hat p ind unit
          (sortStrings (keysOf c1.arrayTableKeys))
          (formatSimpleKeys m1 c1.simpleKeys c1.maxKeyLen ind out)
      rw [hATeq]
      rcases fATKeys (formatMapF fuel) c2.arrayTableKeys p ind unit
          (sortStrings (keysOf c2.arrayTableKeys))
          (formatSimpleKeys m1 c1.simpleKeys c1.maxKeyLen ind out) with ⟨o2, e⟩
      cases e
      · rw [← ht]
        exact formatRegularTables_equiv (fun sub1 sub2 hsub p2 i2 u2 o =>
          formatMapF_equiv fuel hsub p2 i2 u2 o) hE c1.tableKeys p ind unit o2
      · rfl

/-! ### Fuel irrelevance -/

theorem fATItems_congr
    {fm1 fm2 : GoMap → List String → String → String → String → String × Option String}
    (fp : List String) (fps ind unit : String) :
    ∀ (items : List GoValue) (i : Nat) (out : String),
      (∀ sub : GoMap, .vTable sub ∈ items → ∀ o : String,
        fm1 sub fp (ind ++ unit) unit o = fm2 sub fp (ind ++ unit) unit o) →
      fATItems fm1 fp fps ind unit items i out = fATItems fm2 fp fps ind unit items i out
  | [], _, _, _ => rfl
  | item :: rest, i, out, hfm => by
    rcases item with s | iv | g | b | t | - | arr | sub
    case vTable =>
      simp only [fATItems]
      rw [hfm sub (List.mem_cons_self _ _)
        ((if sepAT out i then out ++ "\n" else out) ++ ind ++ "[[" ++ fps ++ "]]\n")]
      rcases fm2 sub fp (ind ++ unit) unit
          ((if sepAT out i then out ++ "\n" else out) ++ ind ++ "[[" ++ fps ++ "]]\n")
        with ⟨o3, e⟩
      cases e
      · exact fATItems_congr fp fps ind unit rest (i + 1) o3
          (fun sub2 hmem o => hfm sub2 (List.mem_cons_of_mem _ hmem) o)
      · rfl
    all_goals rfl

theorem fATKeys_congr
    {fm1 fm2 : GoMap → List String → String → String → String → String × Option String}
    (atk : List (String × List GoValue)) (cp : List String) (ind unit : String) :
    ∀ (ks : List String) (out : String),
      (∀ k ∈ ks, ∀ sub : GoMap, .vTable sub ∈ (List.lookup k atk).getD [] → ∀ o : String,
        fm1 sub (cp ++ [k]) (ind ++ unit) unit o = fm2 sub (cp ++ [k]) (ind ++ unit) unit o) →
      fATKeys fm1 atk cp ind unit ks out = fATKeys fm2 atk cp ind unit ks out
  | [], _, _ => rfl
  | k :: rest, out, hfm => by
    rw [fATKeys, fATKeys,
      fATItems_congr (cp ++ [k]) (dotJoin (cp ++ [k])) ind unit
        ((List.lookup k atk).getD []) 0 out
        (fun sub hmem o => hfm k (List.mem_cons_self _ _) sub hmem o)]
    rcases fATItems fm2 (cp ++ [k]) (dotJoin (cp ++ [k])) ind unit
        ((List.lookup k atk).getD []) 0 out with ⟨o1, e⟩
    cases e
    · exact fATKeys_congr atk cp ind unit rest o1
        (fun k2 hk2 => hfm k2 (List.mem_cons_of_mem _ hk2))
    · rfl

theorem formatRegularTables_congr
    {fm1 fm2 : GoMap → List String → String → String → String → String × Option String}
    (dataMap : GoMap) :
    ∀ (ks cp : List String) (ind unit out : String),
      (∀ k ∈ ks, ∀ sub : GoMap, mapGet dataMap k = .vTable sub → ∀ o : String,
        fm1 sub (cp ++ [k]) (ind ++ unit) unit o = fm2 sub (cp ++ [k]) (ind ++ unit) unit o) →
      formatRegularTables fm1 dataMap ks cp ind unit out
        = formatRegularTables fm2 dataMap ks cp ind unit out
  | [], _, _, _, _, _ => rfl
  | k :: rest, cp, ind, unit, out, hfm => by
    rcases hv : mapGet dataMap k with s | iv | g | b | t | - | arr | sub
    case vTable =>
      simp only [formatRegularTables, hv]
      rw [hfm k (List.mem_cons_self _ _) sub hv
        ((if sepRT out then out ++ "\n" else out) ++ ind ++ "[" ++ dotJoin (cp ++ [k]) ++ "]\n")]
      rcases fm2 sub (cp ++ [k]) (ind ++ unit) unit
          ((if sepRT out then out ++ "\n" else out) ++ ind ++ "[" ++ dotJoin (cp ++ [k]) ++ "]\n")
        with ⟨o3, e⟩
      cases e
      · exact formatRegularTables_congr dataMap rest cp ind unit o3
          (fun k2 hk2 => hfm k2 (List.mem_cons_of_mem _ hk2))
      · rfl
    all_goals
      simp only [formatRegularTables, hv]

theorem formatMapF_stab :
    ∀ (f1 f2 : Nat) (m : GoMap) (p : List String) (ind unit out : String),
      needMap m ≤ f1 → needMap m ≤ f2 →
      formatMapF f1 m p ind unit out = formatMapF f2 m p ind unit out
  | 0, _, m, _, _, _, _, h1, _ => absurd (le_trans (needMap_pos m) h1) (by omega)
  | _ + 1, 0, m, _, _, _, _, _, h2 => absurd (le_trans (needMap_pos m) h2) (by omega)
  | f1 + 1, f2 + 1, m, p, ind, unit, out, h1, h2 => by
    simp only [formatMapF]
    rcases hcat : categorize m p with e | c
    · rfl
    · simp only [formatArrayTables]
      have hATeq := @fATKeys_congr (formatMapF f1) (formatMapF f2) c.arrayTableKeys p ind unit
        (sortStrings (keysOf c.arrayTableKeys))
        (formatSimpleKeys m c.simpleKeys c.maxKeyLen ind out)
        (fun k hk sub hmem o => by
          have hk2 : k ∈ keysOf c.arrayTableKeys := (sortStrings_perm _).mem_iff.mp hk
          have hlook := lookup_atk hcat hk2
          rw [hlook] at hmem
          have hspec := isATKey_spec (isATKey_of_mem_atk hcat hk2)
          have hb := needMap_arrTable_le hspec.1 (by simpa using hmem)
          have hf1 : needMap sub ≤ f1 := by omega
          have hf2 : needMap sub ≤ f2 := by omega
          exact formatMapF_stab f1 f2 sub (p ++ [k]) (ind ++ unit) unit o hf1 hf2)
      rw [hATeq]
      rcases fATKeys (formatMapF f2) c.arrayTableKeys p ind unit
          (sortStrings (keysOf c.arrayTableKeys))
          (formatSimpleKeys m c.simpleKeys c.maxKeyLen ind out) with ⟨o2, e⟩
      cases e
      · exact @formatRegularTables_congr (formatMapF f1) (formatMapF f2) m c.tableKeys p ind
          unit o2
          (fun k hk sub hsub o => by
            have hb := needMap_table_le hsub
            exact formatMapF_stab f1 f2 sub (p ++ [k]) (ind ++ unit) unit o
              (by omega) (by omega))
      · rfl

/-! ### C10 -/

/-- C10: rendering is deterministic with respect to map representation: two
documents equal as key-to-value mappings (same key multiset at every table
level, equal values under each key, regardless of entry order) render to the
same bytes and the same error, because every level collects and sorts its
keys before writing. -/
theorem c10_representation_independence (d1 d2 : GoMap) (indentUnit : String)
    (h : EquivM d1 d2) : Format d1 indentUnit = Format d2 indentUnit := by
  have hm1 := le_max_left (needMap d1) (needMap d2)
  have hm2 := le_max_right (needMap d1) (needMap d2)
  unfold Format
  rw [formatMapF_stab (needMap d1 + 1) (max (needMap d1) (needMap d2) + 1) d1 [] ""
      indentUnit "" (by omega) (by omega),
    formatMapF_stab (needMap d2 + 1) (max (needMap d1) (needMap d2) + 1) d2 [] ""
      indentUnit "" (by omega) (by omega),
    formatMapF_equiv (max (needMap d1) (needMap d2) + 1) h [] "" indentUnit ""]

/-- Witness for C10 on two permuted representations of one document. -/
theorem c10_representation_independence_witness :
    EquivM exPermDoc1 exPermDoc2 ∧ Format exPermDoc1 "" = Format exPermDoc2 "" := by
  have hE : EquivM exPermDoc1 exPermDoc2 := by
    refine EquivV.table (by decide) ?_
    intro k v1 v2 h1 h2
    by_cases hb : k = "b"
    · subst hb
      simp [exPermDoc1, List.lookup] at h1
      simp [exPermDoc2, List.lookup] at h2
      subst h1
      subst h2
      exact EquivV.int 1
    · by_cases ha : k = "a"
      · subst ha
        simp [exPermDoc1, List.lookup] at h1
        simp [exPermDoc2, List.lookup] at h2
        subst h1
        subst h2
        exact EquivV.str "x"
      · exfalso
        simp [exPermDoc1, List.lookup, beq_eq_false_iff_ne.mpr hb,
          beq_eq_false_iff_ne.mpr ha] at h1
  exact ⟨hE, c10_representation_independence exPermDoc1 exPermDoc2 "" hE⟩

end PrettyToml
